import Mathlib

set_option maxHeartbeats 1000000

-- Shallow embedding of the ChatBot repository's core: the KeyBank scheduler
-- (src/utils/key_bank.py), the retry decorator (src/utils/error_handler.py)
-- and the chatbot inline retry (src/chatbot.py).  Python floats (epoch
-- seconds, rates) are modelled as rationals, Python ints as integers.  Key
-- secret strings are opaque values never inspected by the scheduler, so a
-- heap entry (available_at, index, key) is modelled as (available_at, index)
-- and a key list by its length; heapq's heap is modelled as a list whose pop
-- removes the lexicographically smallest entry, which agrees with heapq on
-- the multiset of entries (the only thing the code's behaviour depends on,
-- since indices are unique and ties on identical entries are immaterial).

/-- Python `int(x)` applied to a float: truncation toward zero. -/
def pyInt (q : ℚ) : ℤ := if q < 0 then -⌊-q⌋ else ⌊q⌋

/-- Python `round(x)` applied to a float: round half to even. -/
def pyRound (q : ℚ) : ℤ :=
  if q - ⌊q⌋ < 1/2 then ⌊q⌋
  else if (1:ℚ)/2 < q - ⌊q⌋ then ⌊q⌋ + 1
  else if ⌊q⌋ % 2 = 0 then ⌊q⌋ else ⌊q⌋ + 1

/-- State of `KeyBank` (src/utils/key_bank.py): `_capacity_int`, `_rate`,
per-key `_tokens` and `_last` lists, and the heap `_heap` of
(next_available_time, index) entries. -/
structure KeyBank where
  capacity : ℤ
  rate : ℚ
  tokens : List ℤ
  last : List ℚ
  heap : List (ℚ × ℕ)
deriving DecidableEq, Repr

/-- Capacity derived from the interval fallback in `KeyBank.__init__`:
`interval = max(0.1, float(per_key_interval_seconds))`;
`capacity = max(1, int(round(60.0 / interval)))`. -/
def intervalCapacity (interval : ℚ) : ℤ :=
  max 1 (pyRound (60 / max (1/10) interval))

/-- `KeyBank.__init__(keys, per_key_interval_seconds, per_key_rate_per_min)`:
`n` is the number of keys; `none` models the `ValueError` raised on an empty
key list.  `now` is the value of `time.time()` at construction. -/
def mkKeyBank (n : ℕ) (perKeyIntervalSeconds : ℚ) (perKeyRatePerMin : Option ℚ)
    (now : ℚ) : Option KeyBank :=
  if n = 0 then none
  else
    let capacityInt : ℤ :=
      match perKeyRatePerMin with
      | some r => if 0 < r then pyInt r else intervalCapacity perKeyIntervalSeconds
      | none => intervalCapacity perKeyIntervalSeconds
    some { capacity := capacityInt
           rate := (capacityInt : ℚ) / 60
           tokens := List.replicate n capacityInt
           last := List.replicate n now
           heap := (List.range n).map (fun i => ((0 : ℚ), i)) }

/-- Order on heap entries used by heapq on (available_at, index, key)
tuples: lexicographic; the key string never takes part in a comparison
because indices are distinct. -/
def entryLe (x y : ℚ × ℕ) : Prop :=
  x.1 < y.1 ∨ (x.1 = y.1 ∧ x.2 ≤ y.2)

instance entryLe.dec : DecidableRel entryLe := fun x y =>
  decidable_of_iff (x.1 < y.1 ∨ (x.1 = y.1 ∧ x.2 ≤ y.2)) Iff.rfl

/-- Smallest entry of a heap (what `heapq.heappop` returns), `none` on an
empty heap (`heappop` raises IndexError there). -/
def findMin : List (ℚ × ℕ) → Option (ℚ × ℕ)
  | [] => none
  | e :: t => some (t.foldl (fun a b => if entryLe a b then a else b) e)

/-- Remove the first occurrence of an entry from a list. -/
def removeEntry (m : ℚ × ℕ) : List (ℚ × ℕ) → List (ℚ × ℕ)
  | [] => []
  | e :: t => if e = m then t else e :: removeEntry m t

/-- `heapq.heappop`: the smallest entry together with the remaining heap. -/
def popMin (l : List (ℚ × ℕ)) : Option ((ℚ × ℕ) × List (ℚ × ℕ)) :=
  match findMin l with
  | none => none
  | some m => some (m, removeEntry m l)

/-- Whole tokens accrued by the refill block of `get_key_with_index`:
`delta = max(0.0, now - self._last[idx])`, and when `delta > 0`,
`accrued = int(delta * self._rate)`; otherwise no token accrues. -/
def refillAccrued (s : KeyBank) (idx : ℕ) (now1 : ℚ) : ℤ :=
  if 0 < max 0 (now1 - s.last.getD idx 0) then
    pyInt (max 0 (now1 - s.last.getD idx 0) * s.rate)
  else 0

/-- Token list after the refill block: when `accrued > 0`,
`self._tokens[idx] = min(self._capacity_int, self._tokens[idx] + accrued)`.
-/
def refilledTokens (s : KeyBank) (idx : ℕ) (now1 : ℚ) : List ℤ :=
  if 0 < refillAccrued s idx now1 then
    s.tokens.set idx
      (min s.capacity (s.tokens.getD idx 0 + refillAccrued s idx now1))
  else s.tokens

/-- Last-refill list after the refill block: when `accrued > 0`,
`self._last[idx] = self._last[idx] + accrued / self._rate` (keeping the
fractional remainder in time). -/
def refilledLast (s : KeyBank) (idx : ℕ) (now1 : ℚ) : List ℚ :=
  if 0 < refillAccrued s idx now1 then
    s.last.set idx
      (s.last.getD idx 0 + (refillAccrued s idx now1 : ℚ) / s.rate)
  else s.last

/-- `KeyBank.get_key_with_index` (src/utils/key_bank.py).  `now` is the value
of `time.time()` during the call.  The result is the state after the call
together with `some (index, total_wait)` on success; `none` in the second
component models an uncaught exception (IndexError on an empty heap, an
out-of-range key index, or the ZeroDivisionError from `1.0 / self._rate`
when the rate is zero), in which case the first component is the state the
exception leaves behind (the popped entry is never pushed back). -/
def get_key_with_index (s : KeyBank) (now : ℚ) : KeyBank × Option (ℕ × ℚ) :=
  match popMin s.heap with
  | none => (s, none)
  | some ((availableAt, idx), rest) =>
    if idx < s.tokens.length ∧ idx < s.last.length then
      let waitHeap : ℚ := max 0 (availableAt - now)
      let now1 : ℚ := if 0 < waitHeap then availableAt else now
      let tokens1 : List ℤ := refilledTokens s idx now1
      let last1 : List ℚ := refilledLast s idx now1
      if 1 ≤ tokens1.getD idx 0 then
        let tokens2 := tokens1.set idx (tokens1.getD idx 0 - 1)
        if 1 ≤ tokens2.getD idx 0 then
          ({ s with tokens := tokens2, last := last1,
                    heap := rest ++ [(now1, idx)] }, some (idx, waitHeap))
        else if s.rate = 0 then
          ({ s with tokens := tokens2, last := last1, heap := rest }, none)
        else
          let nextAvailable : ℚ := last1.getD idx 0 + 1 / s.rate
          ({ s with tokens := tokens2, last := last1,
                    heap := rest ++ [(nextAvailable, idx)] }, some (idx, waitHeap))
      else if s.rate = 0 then
        ({ s with tokens := tokens1, last := last1, heap := rest }, none)
      else
        let nextAvailable : ℚ := last1.getD idx 0 + 1 / s.rate
        let waitExtra : ℚ := max 0 (nextAvailable - now1)
        ({ s with tokens := tokens1, last := last1.set idx nextAvailable,
                  heap := rest ++ [(nextAvailable, idx)] },
         some (idx, waitHeap + waitExtra))
    else ({ s with heap := rest }, none)

/-- Largest available_at over the heap, `now` when the heap is empty:
`max((available_at for available_at, _, _ in self._heap), default=now)`. -/
def heapMaxAvail (l : List (ℚ × ℕ)) (dflt : ℚ) : ℚ :=
  match l with
  | [] => dflt
  | e :: t => t.foldl (fun acc x => max acc x.1) e.1

/-- Rebuild loop of `penalize_key`: the first entry carrying `idx` is moved
to `max(available_at, b) + seconds` where `b = max(now, current_max)`;
every other entry is kept as is. -/
def bumpFirst (idx : ℕ) (b seconds : ℚ) : List (ℚ × ℕ) → List (ℚ × ℕ)
  | [] => []
  | (a, i) :: t =>
    if i = idx then (max a b + seconds, i) :: t
    else (a, i) :: bumpFirst idx b seconds t

/-- `KeyBank.penalize_key(idx, seconds)` (src/utils/key_bank.py); `now` is
`time.time()` during the call.  When `idx` occurs in no heap entry the
fallback lookup of its key string fails as well and the heap is rebuilt
unchanged, which is what `bumpFirst` yields in that case.  `heapify` only
permutes the backing array and is dropped, the heap being modelled up to
entry multiset. -/
def penalize_key (s : KeyBank) (idx : ℕ) (seconds : ℚ) (now : ℚ) : KeyBank :=
  if seconds ≤ 0 then s
  else
    let currentMax : ℚ := heapMaxAvail s.heap now
    { s with heap := bumpFirst idx (max now currentMax) seconds s.heap }

/-- An operation on a shared pool: the argument of each constructor is the
`time.time()` observed during the call. -/
inductive PoolOp where
  | acquire (now : ℚ)
  | penalize (idx : ℕ) (seconds : ℚ) (now : ℚ)
deriving DecidableEq, Repr

/-- Effect of one operation on the pool state. -/
def applyOp (s : KeyBank) : PoolOp → KeyBank
  | PoolOp.acquire now => (get_key_with_index s now).1
  | PoolOp.penalize idx seconds now => penalize_key s idx seconds now

/-- State after a sequence of operations. -/
def runOps (s : KeyBank) : List PoolOp → KeyBank
  | [] => s
  | op :: rest => runOps (applyOp s op) rest

/-- State after `k` acquire calls, all observing the same clock value
`now` (back-to-back calls with no time passing). -/
def iterAcquire (s : KeyBank) (now : ℚ) : ℕ → KeyBank
  | 0 => s
  | k+1 => (get_key_with_index (iterAcquire s now k) now).1

/-- Acquire step written from the specification's words (spec.md, section
4.1, steps 1 to 6, and the claim's phrasing): entry with smallest
next_available_time removed; now advanced to it when it lies in the future;
refill by exactly floor(elapsed times refill_rate), capped at capacity, with
last_refill_time advanced by accrued divided by refill_rate; then one token
consumed when tokens is at least 1 (next_available_time being now when
tokens stay at least 1, last_refill_time plus 1/refill_rate otherwise), and
when tokens is 0 the wait is last_refill_time plus 1/refill_rate minus now
and last_refill_time advances to that instant. -/
def specAcquire (s : KeyBank) (now : ℚ) : KeyBank × Option (ℕ × ℚ) :=
  match popMin s.heap with
  | none => (s, none)
  | some ((availableAt, idx), rest) =>
    if idx < s.tokens.length ∧ idx < s.last.length then
      let now1 : ℚ := if now < availableAt then availableAt else now
      let elapsed : ℚ := max 0 (now1 - s.last.getD idx 0)
      let accrued : ℤ := ⌊elapsed * s.rate⌋
      let tokens1 : List ℤ :=
        s.tokens.set idx (min s.capacity (s.tokens.getD idx 0 + accrued))
      let last1 : List ℚ :=
        s.last.set idx (s.last.getD idx 0 + (accrued : ℚ) / s.rate)
      if 1 ≤ tokens1.getD idx 0 then
        let tokens2 := tokens1.set idx (tokens1.getD idx 0 - 1)
        let nextAvailable : ℚ :=
          if 1 ≤ tokens2.getD idx 0 then now1 else last1.getD idx 0 + 1 / s.rate
        ({ s with tokens := tokens2, last := last1,
                  heap := rest ++ [(nextAvailable, idx)] },
         some (idx, max 0 (availableAt - now)))
      else
        let nextAvailable : ℚ := last1.getD idx 0 + 1 / s.rate
        ({ s with tokens := tokens1, last := last1.set idx nextAvailable,
                  heap := rest ++ [(nextAvailable, idx)] },
         some (idx, max 0 (availableAt - now) + (nextAvailable - now1)))
    else (s, none)

-- Retry logic.  An external call outcome is either a success payload or an
-- exception whose message is a list of characters (`str(e)`).

/-- Result of one external call attempt. -/
inductive CallOutcome where
  | ok (v : ℕ)
  | err (msg : List Char)
deriving DecidableEq, Repr

/-- Substring test, Python `needle in hay` on strings. -/
def containsSub : List Char → List Char → Bool
  | [], needle => needle.isEmpty
  | c :: t, needle => List.isPrefixOf needle (c :: t) || containsSub t needle

/-- Characters of a string literal. -/
def strChars (s : String) : List Char := s.toList

/-- Python `str(e).lower()`. -/
def lowerMsg (m : List Char) : List Char := m.map Char.toLower

/-- Error classification of `retry_with_key_rotation`
(src/utils/error_handler.py, lines 35 to 41): rate / quota / 429, timeout /
timed out, connection / network, each matched on the lowercased message. -/
def isRetryableMsg (m : List Char) : Bool :=
  (containsSub (lowerMsg m) (strChars "rate")
    || containsSub (lowerMsg m) (strChars "quota")
    || containsSub (lowerMsg m) (strChars "429"))
  || (containsSub (lowerMsg m) (strChars "timeout")
    || containsSub (lowerMsg m) (strChars "timed out"))
  || (containsSub (lowerMsg m) (strChars "connection")
    || containsSub (lowerMsg m) (strChars "network"))

/-- Error classification of `Chatbot._call_groq_with_retry`
(src/chatbot.py, lines 106 to 109): rate / quota / 429 and timeout /
timed out only; no connection or network group. -/
def chatbotRetryable (m : List Char) : Bool :=
  (containsSub (lowerMsg m) (strChars "rate")
    || containsSub (lowerMsg m) (strChars "quota")
    || containsSub (lowerMsg m) (strChars "429"))
  || (containsSub (lowerMsg m) (strChars "timeout")
    || containsSub (lowerMsg m) (strChars "timed out"))

/-- Classification written from the claim's words: the message contains one
of the seven substrings rate, quota, 429, timeout, timed out, connection,
network, case-insensitively. -/
def claimRetryable (m : List Char) : Bool :=
  containsSub (lowerMsg m) (strChars "rate")
  || containsSub (lowerMsg m) (strChars "quota")
  || containsSub (lowerMsg m) (strChars "429")
  || containsSub (lowerMsg m) (strChars "timeout")
  || containsSub (lowerMsg m) (strChars "timed out")
  || containsSub (lowerMsg m) (strChars "connection")
  || containsSub (lowerMsg m) (strChars "network")

/-- Attempt loop of the decorator `retry_with_key_rotation`
(src/utils/error_handler.py).  `oracle n` is the outcome of the wrapped
call on loop iteration `n`; `keyIndex` is the value of the optional
`key_index` keyword argument; `fuel` equals `max_attempts - attempt`, so
`fuel = 1` means `attempt == max_attempts - 1`.  The result carries the
returned value or the propagated error message, together with the list of
`penalize_key` calls (index, seconds) the loop issued.  Sleeps and log
prints mutate nothing modelled and are dropped.  The `fuel = 0` base case
is the `raise last_exception` line after the loop, reachable only when
`max_attempts = 0` (where Python would raise a TypeError on `raise None`;
the error payload is the empty message). -/
def retry_rotation_go (oracle : ℕ → CallOutcome) (keyIndex : Option ℕ)
    (penalizeSeconds : ℚ) : ℕ → ℕ → Except (List Char) ℕ × List (ℕ × ℚ)
  | _, 0 => (Except.error [], [])
  | attempt, fuel+1 =>
    match oracle attempt with
    | CallOutcome.ok v => (Except.ok v, [])
    | CallOutcome.err m =>
      if isRetryableMsg m = false ∨ fuel = 0 then (Except.error m, [])
      else
        let pens : List (ℕ × ℚ) :=
          match keyIndex with
          | some i => [(i, penalizeSeconds)]
          | none => []
        let r := retry_rotation_go oracle keyIndex penalizeSeconds (attempt+1) fuel
        (r.1, pens ++ r.2)

/-- The decorator entered at attempt 0 with full fuel. -/
def retry_with_key_rotation (oracle : ℕ → CallOutcome) (maxAttempts : ℕ)
    (keyIndex : Option ℕ) (penalizeSeconds : ℚ) :
    Except (List Char) ℕ × List (ℕ × ℚ) :=
  retry_rotation_go oracle keyIndex penalizeSeconds 0 maxAttempts

/-- `Chatbot._call_groq_with_retry` (src/chatbot.py).  `oracle n` yields the
key index acquired from the key bank on attempt `n` together with the
outcome of the Groq call; `fuel` equals `max_attempts - attempt`, so the
recursion guard `attempt < max_attempts` is `fuel` being positive.  On any
exception the acquired key is penalized with seconds = 2.0; the result
collects those penalize calls in order. -/
def call_groq_go (oracle : ℕ → ℕ × CallOutcome) :
    ℕ → ℕ → Except (List Char) ℕ × List (ℕ × ℚ)
  | attempt, 0 =>
    match oracle attempt with
    | (_, CallOutcome.ok v) => (Except.ok v, [])
    | (ki, CallOutcome.err m) => (Except.error m, [(ki, 2)])
  | attempt, fuel+1 =>
    match oracle attempt with
    | (_, CallOutcome.ok v) => (Except.ok v, [])
    | (ki, CallOutcome.err m) =>
      if chatbotRetryable m then
        let r := call_groq_go oracle (attempt+1) fuel
        (r.1, (ki, 2) :: r.2)
      else (Except.error m, [(ki, 2)])

/-- The chatbot retry entered at a given attempt number (attempts count
from 1 in the source; the numbering is irrelevant to the oracle). -/
def call_groq_with_retry (oracle : ℕ → ℕ × CallOutcome)
    (maxAttempts attempt : ℕ) : Except (List Char) ℕ × List (ℕ × ℚ) :=
  call_groq_go oracle attempt (maxAttempts - attempt)

-- Helper lemmas on lists, on the entry order, and on the heap operations.

theorem getD_set_self {α : Type} (l : List α) (i : ℕ) (v d : α)
    (h : i < l.length) : (l.set i v).getD i d = v := by
  induction l generalizing i with
  | nil => simp at h
  | cons a t ih =>
    cases i with
    | zero => simp
    | succ n =>
      simp only [List.set, List.getD_cons_succ]
      exact ih n (by simpa using h)

theorem getD_set_ne {α : Type} (l : List α) (i j : ℕ) (v d : α)
    (h : j ≠ i) : (l.set i v).getD j d = l.getD j d := by
  induction l generalizing i j with
  | nil => simp
  | cons a t ih =>
    cases i with
    | zero =>
      cases j with
      | zero => exact absurd rfl h
      | succ m => simp
    | succ n =>
      cases j with
      | zero => simp
      | succ m =>
        simp only [List.set, List.getD_cons_succ]
        exact ih n m (fun hc => h (by simp [hc]))

theorem set_getD_self {α : Type} (l : List α) (i : ℕ) (d : α) :
    l.set i (l.getD i d) = l := by
  induction l generalizing i with
  | nil => simp
  | cons a t ih =>
    cases i with
    | zero => simp
    | succ n =>
      show a :: t.set n (t.getD n d) = a :: t
      rw [ih n]

theorem getD_mem {α : Type} (l : List α) (i : ℕ) (d : α)
    (h : i < l.length) : l.getD i d ∈ l := by
  induction l generalizing i with
  | nil => simp at h
  | cons a t ih =>
    cases i with
    | zero => simp
    | succ n =>
      simp only [List.getD_cons_succ]
      exact List.mem_cons_of_mem a (ih n (by simpa using h))

theorem entryLe_refl (x : ℚ × ℕ) : entryLe x x := Or.inr ⟨rfl, le_refl _⟩

theorem entryLe_total (x y : ℚ × ℕ) : entryLe x y ∨ entryLe y x := by
  rcases lt_trichotomy x.1 y.1 with h | h | h
  · exact Or.inl (Or.inl h)
  · rcases Nat.le_total x.2 y.2 with h2 | h2
    · exact Or.inl (Or.inr ⟨h, h2⟩)
    · exact Or.inr (Or.inr ⟨h.symm, h2⟩)
  · exact Or.inr (Or.inl h)

theorem entryLe_trans {x y z : ℚ × ℕ} (h1 : entryLe x y) (h2 : entryLe y z) :
    entryLe x z := by
  rcases h1 with h1 | ⟨h1, h1n⟩
  · rcases h2 with h2 | ⟨h2, h2n⟩
    · exact Or.inl (h1.trans h2)
    · exact Or.inl (h2 ▸ h1)
  · rcases h2 with h2 | ⟨h2, h2n⟩
    · exact Or.inl (h1 ▸ h2)
    · exact Or.inr ⟨h1.trans h2, h1n.trans h2n⟩

theorem entryLe_antisymm {x y : ℚ × ℕ} (h1 : entryLe x y) (h2 : entryLe y x) :
    x = y := by
  rcases h1 with h1 | ⟨h1, h1n⟩
  · rcases h2 with h2 | ⟨h2, h2n⟩
    · exact absurd (h1.trans h2) (lt_irrefl _)
    · exact absurd h1 (h2 ▸ lt_irrefl _)
  · rcases h2 with h2 | ⟨h2, h2n⟩
    · exact absurd h2 (h1 ▸ lt_irrefl _)
    · exact Prod.ext h1 (le_antisymm h1n h2n)

theorem foldlMin_mem (t : List (ℚ × ℕ)) : ∀ (a : ℚ × ℕ),
    t.foldl (fun x y => if entryLe x y then x else y) a ∈ a :: t := by
  induction t with
  | nil => intro a; simp
  | cons b t ih =>
    intro a
    simp only [List.foldl_cons]
    have h := ih (if entryLe a b then a else b)
    rcases List.mem_cons.mp h with h1 | h1
    · rw [h1]
      split
      · exact List.mem_cons_self a (b :: t)
      · exact List.mem_cons_of_mem a (List.mem_cons_self b t)
    · exact List.mem_cons_of_mem a (List.mem_cons_of_mem b h1)

theorem foldlMin_le (t : List (ℚ × ℕ)) : ∀ (a : ℚ × ℕ),
    ∀ e ∈ a :: t, entryLe (t.foldl (fun x y => if entryLe x y then x else y) a) e := by
  induction t with
  | nil =>
    intro a e he
    simp at he; rw [he]; exact entryLe_refl _
  | cons b t ih =>
    intro a e he
    simp only [List.foldl_cons]
    have hpa : entryLe (if entryLe a b then a else b) a := by
      by_cases h : entryLe a b
      · rw [if_pos h]; exact entryLe_refl a
      · rw [if_neg h]
        rcases entryLe_total a b with h2 | h2
        · exact absurd h2 h
        · exact h2
    have hpb : entryLe (if entryLe a b then a else b) b := by
      by_cases h : entryLe a b
      · rw [if_pos h]; exact h
      · rw [if_neg h]; exact entryLe_refl b
    rcases List.mem_cons.mp he with h1 | h1
    · rw [h1]
      exact entryLe_trans
        (ih (if entryLe a b then a else b) _ (List.mem_cons_self _ t)) hpa
    · rcases List.mem_cons.mp h1 with h2 | h2
      · rw [h2]
        exact entryLe_trans
          (ih (if entryLe a b then a else b) _ (List.mem_cons_self _ t)) hpb
      · exact ih (if entryLe a b then a else b) e (List.mem_cons_of_mem _ h2)

theorem findMin_mem {l : List (ℚ × ℕ)} {m : ℚ × ℕ}
    (h : findMin l = some m) : m ∈ l := by
  cases l with
  | nil => simp [findMin] at h
  | cons a t =>
    simp only [findMin, Option.some.injEq] at h
    exact h ▸ foldlMin_mem t a

theorem findMin_le {l : List (ℚ × ℕ)} {m : ℚ × ℕ}
    (h : findMin l = some m) : ∀ e ∈ l, entryLe m e := by
  cases l with
  | nil => simp [findMin] at h
  | cons a t =>
    simp only [findMin, Option.some.injEq] at h
    exact h ▸ foldlMin_le t a

theorem findMin_eq {l : List (ℚ × ℕ)} {m : ℚ × ℕ}
    (hmem : m ∈ l) (hle : ∀ e ∈ l, entryLe m e) : findMin l = some m := by
  cases l with
  | nil => simp at hmem
  | cons a t =>
    have h1 := foldlMin_mem t a
    have h2 := foldlMin_le t a
    simp only [findMin, Option.some.injEq]
    exact entryLe_antisymm (h2 m hmem) (hle _ h1)

theorem removeEntry_cons_self (m : ℚ × ℕ) (t : List (ℚ × ℕ)) :
    removeEntry m (m :: t) = t := by simp [removeEntry]

theorem removeEntry_cons_ne {e m : ℚ × ℕ} (t : List (ℚ × ℕ)) (h : e ≠ m) :
    removeEntry m (e :: t) = e :: removeEntry m t := by simp [removeEntry, h]

theorem removeEntry_append_left {m : ℚ × ℕ} {l1 : List (ℚ × ℕ)}
    (l2 : List (ℚ × ℕ)) (h : m ∉ l1) :
    removeEntry m (l1 ++ l2) = l1 ++ removeEntry m l2 := by
  induction l1 with
  | nil => simp
  | cons a t ih =>
    have ha : a ≠ m := fun hc => h (hc ▸ List.mem_cons_self a t)
    show removeEntry m (a :: (t ++ l2)) = a :: t ++ removeEntry m l2
    rw [removeEntry_cons_ne _ ha, ih (fun hc => h (List.mem_cons_of_mem a hc))]
    rfl

theorem removeEntry_perm {m : ℚ × ℕ} {l : List (ℚ × ℕ)} (h : m ∈ l) :
    l.Perm (m :: removeEntry m l) := by
  induction l with
  | nil => simp at h
  | cons a t ih =>
    by_cases ha : a = m
    · subst ha; rw [removeEntry_cons_self]
    · have hm : m ∈ t := by
        rcases List.mem_cons.mp h with h1 | h1
        · exact absurd h1.symm ha
        · exact h1
      rw [removeEntry_cons_ne t ha]
      exact ((ih hm).cons a).trans (List.Perm.swap m a (removeEntry m t))

theorem popMin_eq {l : List (ℚ × ℕ)} {m : ℚ × ℕ}
    (hmem : m ∈ l) (hle : ∀ e ∈ l, entryLe m e) :
    popMin l = some (m, removeEntry m l) := by
  simp [popMin, findMin_eq hmem hle]

theorem popMin_perm {l rest : List (ℚ × ℕ)} {m : ℚ × ℕ}
    (h : popMin l = some (m, rest)) : l.Perm (m :: rest) := by
  unfold popMin at h
  cases hf : findMin l with
  | none => rw [hf] at h; simp at h
  | some m' =>
    rw [hf] at h
    simp only [Option.some.injEq, Prod.mk.injEq] at h
    obtain ⟨h1, h2⟩ := h
    subst h1; subst h2
    exact removeEntry_perm (findMin_mem hf)

theorem bumpFirst_map_snd (idx : ℕ) (b seconds : ℚ) (l : List (ℚ × ℕ)) :
    (bumpFirst idx b seconds l).map Prod.snd = l.map Prod.snd := by
  induction l with
  | nil => rfl
  | cons e t ih =>
    obtain ⟨a, i⟩ := e
    by_cases h : i = idx
    · simp [bumpFirst, h]
    · simp [bumpFirst, h, ih]

theorem bumpFirst_eq_of_nodup {l : List (ℚ × ℕ)} {a : ℚ} {idx : ℕ}
    (b seconds : ℚ) (hmem : (a, idx) ∈ l) (hnd : (l.map Prod.snd).Nodup) :
    bumpFirst idx b seconds l =
      l.map (fun p => if p.2 = idx then (max a b + seconds, idx) else p) := by
  induction l with
  | nil => simp at hmem
  | cons e t ih =>
    obtain ⟨a0, i0⟩ := e
    simp only [List.map_cons, List.nodup_cons] at hnd
    obtain ⟨hni, hndt⟩ := hnd
    by_cases h : i0 = idx
    · subst h
      have ha : a0 = a := by
        rcases List.mem_cons.mp hmem with h1 | h1
        · exact (congrArg Prod.fst h1).symm
        · exact absurd (List.mem_map_of_mem Prod.snd h1) hni
      subst a0
      have hmap : t.map (fun p : ℚ × ℕ =>
          if p.2 = i0 then (max a b + seconds, i0) else p) = t := by
        conv_rhs => rw [← List.map_id t]
        refine List.map_congr_left ?_
        intro p hp
        have hpne : p.2 ≠ i0 := fun hc => hni (hc ▸ List.mem_map_of_mem Prod.snd hp)
        simp [hpne]
      have hstep : bumpFirst i0 b seconds ((a, i0) :: t)
          = (max a b + seconds, i0) :: t := by
        simp [bumpFirst]
      rw [hstep, List.map_cons, hmap]
      simp
    · have hmt : (a, idx) ∈ t := by
        rcases List.mem_cons.mp hmem with h1 | h1
        · exact absurd (congrArg Prod.snd h1.symm) h
        · exact h1
      simp only [bumpFirst, if_neg h, List.map_cons, if_neg h]
      rw [ih hmt hndt]

theorem heapMaxAvail_le {l : List (ℚ × ℕ)} (d : ℚ) :
    ∀ p ∈ l, p.1 ≤ heapMaxAvail l d := by
  cases l with
  | nil => simp
  | cons e t =>
    have key : ∀ (t : List (ℚ × ℕ)) (a : ℚ), a ≤ t.foldl (fun acc x => max acc x.1) a
        ∧ ∀ p ∈ t, p.1 ≤ t.foldl (fun acc x => max acc x.1) a := by
      intro t
      induction t with
      | nil => intro a; exact ⟨le_refl a, by simp⟩
      | cons b u ih =>
        intro a
        obtain ⟨h1, h2⟩ := ih (max a b.1)
        simp only [List.foldl_cons]
        refine ⟨le_trans (le_max_left a b.1) h1, ?_⟩
        intro p hp
        rcases List.mem_cons.mp hp with h3 | h3
        · rw [h3]; exact le_trans (le_max_right a b.1) h1
        · exact h2 p h3
    intro p hp
    rcases List.mem_cons.mp hp with h | h
    · rw [h]; exact (key t e.1).1
    · exact (key t e.1).2 p h

-- Claim C9: nonpositive penalty is a no-op.

/-- C9: for every pool state, index and seconds at most 0, penalize leaves
the entire pool state unchanged (the early return on nonpositive seconds in
`penalize_key`). -/
theorem penalize_nonpositive_noop (s : KeyBank) (idx : ℕ) (seconds now : ℚ)
    (h : seconds ≤ 0) : penalize_key s idx seconds now = s := by
  simp [penalize_key, h]

/-- Witness for C9 at a concrete pool, index and clock. -/
theorem penalize_nonpositive_noop_witness :
    penalize_key ⟨2, 1/30, [2, 2], [100, 100], [(0, 0), (0, 1)]⟩ 3 0 100
      = ⟨2, 1/30, [2, 2], [100, 100], [(0, 0), (0, 1)]⟩ :=
  penalize_nonpositive_noop _ 3 0 100 le_rfl

-- Claim C2: penalize moves the named credential past every peer.

/-- C2: when the heap holds one entry per index, penalizing a present
credential with positive seconds sets its next_available_time to
max(previous value, now, maximum across all credentials) + seconds, leaves
every other entry untouched, and leaves every other entry strictly below
the penalized one. -/
theorem penalize_makes_least_preferred (s : KeyBank) (idx : ℕ)
    (a seconds now : ℚ) (hmem : (a, idx) ∈ s.heap)
    (hnd : (s.heap.map Prod.snd).Nodup) (hsec : 0 < seconds) :
    (max a (max now (heapMaxAvail s.heap now)) + seconds, idx)
        ∈ (penalize_key s idx seconds now).heap
    ∧ ∀ p ∈ (penalize_key s idx seconds now).heap, p.2 ≠ idx →
        p ∈ s.heap
        ∧ p.1 < max a (max now (heapMaxAvail s.heap now)) + seconds := by
  have hneg : ¬ seconds ≤ 0 := not_le.mpr hsec
  have hheap : (penalize_key s idx seconds now).heap
      = s.heap.map (fun p => if p.2 = idx
          then (max a (max now (heapMaxAvail s.heap now)) + seconds, idx)
          else p) := by
    simp only [penalize_key, if_neg hneg]
    exact bumpFirst_eq_of_nodup _ _ hmem hnd
  constructor
  · rw [hheap]
    have h1 := List.mem_map_of_mem
      (fun p : ℚ × ℕ => if p.2 = idx
        then (max a (max now (heapMaxAvail s.heap now)) + seconds, idx)
        else p) hmem
    simpa using h1
  · intro p hp hpne
    rw [hheap] at hp
    obtain ⟨q, hq, hfq⟩ := List.mem_map.mp hp
    by_cases hq2 : q.2 = idx
    · rw [if_pos hq2] at hfq
      exact absurd (congrArg Prod.snd hfq) (fun hc => hpne hc.symm)
    · rw [if_neg hq2] at hfq
      subst hfq
      refine ⟨hq, ?_⟩
      have h1 : q.1 ≤ heapMaxAvail s.heap now := heapMaxAvail_le now q hq
      have h2 : heapMaxAvail s.heap now
          ≤ max a (max now (heapMaxAvail s.heap now)) :=
        le_trans (le_max_right now _) (le_max_right a _)
      linarith

/-- Witness for C2: a concrete two-key pool where key 0 is penalized to
time 103 = max(0, 100, 5) + 3. -/
theorem penalize_makes_least_preferred_witness :
    ((103 : ℚ), 0) ∈ (penalize_key ⟨2, 1/30, [2, 2], [100, 100],
        [(0, 0), (5, 1)]⟩ 0 3 100).heap := by
  have h := (penalize_makes_least_preferred
    ⟨2, 1/30, [2, 2], [100, 100], [(0, 0), (5, 1)]⟩ 0 0 3 100
    (by decide) (by decide) (by norm_num)).1
  have e : max (0:ℚ) (max 100 (heapMaxAvail [((0:ℚ), (0:ℕ)), (5, 1)] 100)) + 3
      = 103 := by norm_num [heapMaxAvail]
  rw [← e]
  exact h

-- Claim C10 helper: with no key_index keyword the decorator never penalizes.

theorem retry_go_none_no_pens (oracle : ℕ → CallOutcome) (pen : ℚ) :
    ∀ (fuel attempt : ℕ),
      (retry_rotation_go oracle none pen attempt fuel).2 = [] := by
  intro fuel
  induction fuel with
  | zero => intro attempt; rfl
  | succ f ih =>
    intro attempt
    simp only [retry_rotation_go]
    cases oracle attempt with
    | ok v => rfl
    | err m =>
      by_cases h : isRetryableMsg m = false ∨ f = 0
      · simp [h]
      · simp only [if_neg h]
        simpa using ih (attempt + 1)

-- Claim C10: penalization in the decorator requires the key_index kwarg.

/-- C10: invoked without a key_index keyword argument, the decorator issues
no penalize call whatever the outcomes are, and a retryable first failure
still leads to a retry (the result is that of the loop resumed at the next
attempt). -/
theorem rotation_penalize_requires_key_index
    (oracle : ℕ → CallOutcome) (maxAttempts : ℕ) (pen : ℚ) (m : List Char)
    (hfirst : oracle 0 = CallOutcome.err m) (hret : isRetryableMsg m = true)
    (hmax : 2 ≤ maxAttempts) :
    (retry_with_key_rotation oracle maxAttempts none pen).2 = []
    ∧ (retry_with_key_rotation oracle maxAttempts none pen).1
        = (retry_rotation_go oracle none pen 1 (maxAttempts - 1)).1 := by
  constructor
  · exact retry_go_none_no_pens oracle pen maxAttempts 0
  · obtain ⟨f, rfl⟩ : ∃ f, maxAttempts = f + 2 := by
      refine ⟨maxAttempts - 2, ?_⟩
      omega
    show (retry_rotation_go oracle none pen 0 (f + 2)).1 = _
    simp only [retry_rotation_go, hfirst, hret]
    simp

/-- Witness for C10 on a concrete oracle that always reports a 429. -/
theorem rotation_penalize_requires_key_index_witness :
    (retry_with_key_rotation
        (fun _ => CallOutcome.err (strChars "429 too many requests")) 3 none 1).2 = [] :=
  (rotation_penalize_requires_key_index
    (fun _ => CallOutcome.err (strChars "429 too many requests")) 3 1
    (strChars "429 too many requests") rfl (by decide) (by norm_num)).1

-- Claim C6 counterexample: the decorator never penalizes on a fatal error.

/-- C6 counterexample: a non-retryable failure on the first attempt of
retry_with_key_rotation propagates with an empty penalize list even though
a key_index keyword was supplied, refuting the claim that the credential is
penalized exactly once before the last error is propagated. -/
theorem no_penalize_on_fatal_in_rotation_wrapper :
    isRetryableMsg (strChars "invalid api key") = false
    ∧ retry_with_key_rotation
        (fun _ => CallOutcome.err (strChars "invalid api key")) 3 (some 0) (3/2)
      = (Except.error (strChars "invalid api key"), []) := by
  refine ⟨by decide, ?_⟩
  rfl

-- Claim C6 amended: the chatbot inline wrapper has the claimed behaviour.

/-- C6 amended: in the chatbot's retrying wrapper, a failure classified
retryable with attempt below max_attempts penalizes the acquired credential
and proceeds to a new attempt; a non-retryable failure, or a failure of the
final attempt, penalizes the credential exactly once and propagates the
error with no further attempt.  (The decorator in error_handler.py instead
propagates non-retryable and final failures without penalizing.) -/
theorem chatbot_retry_penalizes_and_propagates
    (oracle : ℕ → ℕ × CallOutcome) (maxA attempt ki : ℕ) (m : List Char)
    (h : oracle attempt = (ki, CallOutcome.err m)) :
    (chatbotRetryable m = true → attempt < maxA →
      call_groq_with_retry oracle maxA attempt
        = ((call_groq_with_retry oracle maxA (attempt+1)).1,
           (ki, 2) :: (call_groq_with_retry oracle maxA (attempt+1)).2))
    ∧ ((chatbotRetryable m = false ∨ maxA ≤ attempt) →
      call_groq_with_retry oracle maxA attempt = (Except.error m, [(ki, 2)])) := by
  constructor
  · intro hret hlt
    obtain ⟨f, hf⟩ : ∃ f, maxA - attempt = f + 1 := by
      refine ⟨maxA - attempt - 1, ?_⟩
      omega
    have hf1 : maxA - (attempt + 1) = f := by omega
    unfold call_groq_with_retry
    rw [hf, hf1]
    simp only [call_groq_go, h, hret]
    rfl
  · intro hcase
    rcases hcase with hret | hge
    · unfold call_groq_with_retry
      cases hfu : maxA - attempt with
      | zero => simp only [call_groq_go, h]
      | succ f => simp only [call_groq_go, h, hret, Bool.false_eq_true, if_false]
    · have hfu : maxA - attempt = 0 := by omega
      unfold call_groq_with_retry
      rw [hfu]
      simp only [call_groq_go, h]

/-- Witness for C6 amended: a concrete run with a timeout on attempt 3 of
3, penalized exactly once and propagated. -/
theorem chatbot_retry_penalizes_and_propagates_witness :
    call_groq_with_retry
      (fun n => (n, CallOutcome.err (strChars "Request timed out"))) 3 3
      = (Except.error (strChars "Request timed out"), [(3, 2)]) :=
  (chatbot_retry_penalizes_and_propagates
    (fun n => (n, CallOutcome.err (strChars "Request timed out"))) 3 3 3
    (strChars "Request timed out") rfl).2 (Or.inr (le_refl 3))

-- Claim C7 counterexample: chatbot classification misses connection errors.

/-- C7 counterexample: the message Connection reset by peer contains the
substring connection case-insensitively, yet the chatbot retry logic
classifies it as non-retryable and propagates it after a single attempt
(with one penalize), refuting the claim for that retry path. -/
theorem connection_not_retryable_in_chatbot :
    claimRetryable (strChars "Connection reset by peer") = true
    ∧ chatbotRetryable (strChars "Connection reset by peer") = false
    ∧ call_groq_with_retry
        (fun n => (n, CallOutcome.err (strChars "Connection reset by peer"))) 3 1
      = (Except.error (strChars "Connection reset by peer"), [(1, 2)]) := by
  refine ⟨by decide, by decide, ?_⟩
  rfl

-- Claim C7 amended: classification per wrapper.

/-- C7 amended: the decorator's classifier accepts exactly the errors whose
message contains one of the seven substrings rate, quota, 429, timeout,
timed out, connection, network case-insensitively, and an error matching
none of them propagates out of the decorator at once, with no retry and no
penalize; the chatbot's inline wrapper instead tests only the five
rate/quota/429/timeout/timed-out substrings, and an error it classifies
non-retryable propagates with no retry after the single penalize of the
current attempt. -/
theorem classification_substrings
    (m : List Char) (oracle : ℕ → CallOutcome) (orc : ℕ → ℕ × CallOutcome)
    (keyIndex : Option ℕ) (pen : ℚ) (attempt fuel maxA att ki : ℕ)
    (horacle : oracle attempt = CallOutcome.err m)
    (horc : orc att = (ki, CallOutcome.err m)) :
    (isRetryableMsg m = claimRetryable m)
    ∧ (claimRetryable m = false →
        retry_rotation_go oracle keyIndex pen attempt (fuel+1)
          = (Except.error m, []))
    ∧ (chatbotRetryable m = false →
        call_groq_with_retry orc maxA att = (Except.error m, [(ki, 2)])) := by
  have hclass : isRetryableMsg m = claimRetryable m := by
    simp [isRetryableMsg, claimRetryable, Bool.or_assoc]
  refine ⟨hclass, ?_, ?_⟩
  · intro hfatal
    have hfalse : isRetryableMsg m = false := hclass.trans hfatal
    simp only [retry_rotation_go, horacle, hfalse]
    simp
  · intro hfatal
    unfold call_groq_with_retry
    cases hfu : maxA - att with
    | zero => simp only [call_groq_go, horc]
    | succ f => simp only [call_groq_go, horc, hfatal, Bool.false_eq_true, if_false]

/-- Witness for C7 amended on a concrete fatal message and oracles. -/
theorem classification_substrings_witness :
    retry_rotation_go (fun _ => CallOutcome.err (strChars "model not found"))
        (some 0) (3/2) 0 3
      = (Except.error (strChars "model not found"), []) :=
  ((classification_substrings (strChars "model not found")
    (fun _ => CallOutcome.err (strChars "model not found"))
    (fun n => (n, CallOutcome.err (strChars "model not found")))
    (some 0) (3/2) 0 2 3 1 1 rfl rfl).2.1) (by decide)

-- Invariant machinery for the pool claims.

theorem pyInt_nonneg {q : ℚ} (h : 0 ≤ q) : 0 ≤ pyInt q := by
  unfold pyInt
  rw [if_neg (not_lt.mpr h)]
  exact Int.floor_nonneg.mpr h

theorem intervalCapacity_pos (q : ℚ) : 1 ≤ intervalCapacity q :=
  le_max_left 1 _

/-- Fields of a successfully constructed pool. -/
theorem mkKeyBank_some {n : ℕ} {interval : ℚ} {rpm : Option ℚ} {t0 : ℚ}
    {s0 : KeyBank} (h : mkKeyBank n interval rpm t0 = some s0) :
    n ≠ 0 ∧ 0 ≤ s0.capacity ∧ s0.rate = (s0.capacity : ℚ) / 60
    ∧ s0.tokens = List.replicate n s0.capacity
    ∧ s0.last = List.replicate n t0
    ∧ s0.heap = (List.range n).map (fun i => ((0 : ℚ), i)) := by
  unfold mkKeyBank at h
  by_cases hn : n = 0
  · rw [if_pos hn] at h
    exact absurd h (by simp)
  · rw [if_neg hn] at h
    have hs := (Option.some.inj h).symm
    subst hs
    refine ⟨hn, ?_, rfl, rfl, rfl, rfl⟩
    cases rpm with
    | none => exact le_trans zero_le_one (intervalCapacity_pos interval)
    | some r =>
      by_cases hr : 0 < r
      · simpa [hr] using pyInt_nonneg (le_of_lt hr)
      · simpa [hr] using le_trans zero_le_one (intervalCapacity_pos interval)

theorem refillAccrued_nonneg (s : KeyBank) (idx : ℕ) (now1 : ℚ)
    (hrate : 0 ≤ s.rate) : 0 ≤ refillAccrued s idx now1 := by
  unfold refillAccrued
  split_ifs with h
  · exact pyInt_nonneg (mul_nonneg (le_max_left 0 _) hrate)
  · exact le_refl 0

theorem refilledTokens_length (s : KeyBank) (idx : ℕ) (now1 : ℚ) :
    (refilledTokens s idx now1).length = s.tokens.length := by
  unfold refilledTokens
  split_ifs <;> simp

theorem refilledLast_length (s : KeyBank) (idx : ℕ) (now1 : ℚ) :
    (refilledLast s idx now1).length = s.last.length := by
  unfold refilledLast
  split_ifs <;> simp

theorem setBound {cap : ℤ} {l : List ℤ} (hl : ∀ x ∈ l, 0 ≤ x ∧ x ≤ cap)
    {i : ℕ} {v : ℤ} (hv : 0 ≤ v ∧ v ≤ cap) :
    ∀ x ∈ l.set i v, 0 ≤ x ∧ x ≤ cap := by
  intro x hx
  rcases List.mem_or_eq_of_mem_set hx with h | h
  · exact hl x h
  · exact h ▸ hv

theorem refilledTokens_bound (s : KeyBank) (idx : ℕ) (now1 : ℚ)
    (hcap : 0 ≤ s.capacity) (hrate : 0 ≤ s.rate)
    (htok : ∀ x ∈ s.tokens, 0 ≤ x ∧ x ≤ s.capacity) (hb : idx < s.tokens.length) :
    ∀ x ∈ refilledTokens s idx now1, 0 ≤ x ∧ x ≤ s.capacity := by
  unfold refilledTokens
  split_ifs with hacc
  · refine setBound htok ⟨le_min hcap ?_, min_le_left _ _⟩
    exact add_nonneg (htok _ (getD_mem s.tokens idx 0 hb)).1
      (refillAccrued_nonneg s idx now1 hrate)
  · exact htok

/-- Capacity and rate survive an acquire call. -/
theorem acquire_const_fields (s : KeyBank) (now : ℚ) :
    (get_key_with_index s now).1.capacity = s.capacity
    ∧ (get_key_with_index s now).1.rate = s.rate := by
  unfold get_key_with_index
  cases hpop : popMin s.heap with
  | none => exact ⟨rfl, rfl⟩
  | some pr =>
    obtain ⟨⟨a, idx⟩, rest⟩ := pr
    dsimp only
    split_ifs <;> exact ⟨rfl, rfl⟩

/-- All fields except the heap survive a penalize call. -/
theorem penalize_const_fields (s : KeyBank) (idx : ℕ) (seconds now : ℚ) :
    (penalize_key s idx seconds now).tokens = s.tokens
    ∧ (penalize_key s idx seconds now).capacity = s.capacity
    ∧ (penalize_key s idx seconds now).rate = s.rate
    ∧ (penalize_key s idx seconds now).last = s.last := by
  unfold penalize_key
  split_ifs <;> exact ⟨rfl, rfl, rfl, rfl⟩

/-- Token-bound invariant (claim C4): a nonnegative capacity, a nonnegative
refill rate and every token count within [0, capacity]. -/
def TokenInv (s : KeyBank) : Prop :=
  0 ≤ s.capacity ∧ 0 ≤ s.rate ∧ ∀ x ∈ s.tokens, 0 ≤ x ∧ x ≤ s.capacity

theorem tokenInv_acquire (s : KeyBank) (now : ℚ) (h : TokenInv s) :
    TokenInv (get_key_with_index s now).1 := by
  obtain ⟨hcap, hrate, htok⟩ := h
  unfold TokenInv
  rw [(acquire_const_fields s now).1, (acquire_const_fields s now).2]
  refine ⟨hcap, hrate, ?_⟩
  unfold get_key_with_index
  cases hpop : popMin s.heap with
  | none => exact htok
  | some pr =>
    obtain ⟨⟨a, idx⟩, rest⟩ := pr
    dsimp only
    by_cases hb : idx < s.tokens.length ∧ idx < s.last.length
    · rw [if_pos hb]
      set now1 : ℚ := if 0 < max 0 (a - now) then a else now with hnow1
      have htok1 := refilledTokens_bound s idx now1 hcap hrate htok hb.1
      have hlen1 : idx < (refilledTokens s idx now1).length := by
        rw [refilledTokens_length]; exact hb.1
      split_ifs with h1 h2 h3 h4
      · exact setBound htok1 ⟨by linarith,
          le_trans (by linarith) (htok1 _ (getD_mem _ idx 0 hlen1)).2⟩
      · exact setBound htok1 ⟨by linarith,
          le_trans (by linarith) (htok1 _ (getD_mem _ idx 0 hlen1)).2⟩
      · exact setBound htok1 ⟨by linarith,
          le_trans (by linarith) (htok1 _ (getD_mem _ idx 0 hlen1)).2⟩
      · exact htok1
      · exact htok1
    · rw [if_neg hb]
      exact htok

theorem tokenInv_penalize (s : KeyBank) (idx : ℕ) (seconds now : ℚ)
    (h : TokenInv s) : TokenInv (penalize_key s idx seconds now) := by
  obtain ⟨h1, h2, h3, h4⟩ := penalize_const_fields s idx seconds now
  unfold TokenInv
  rw [h1, h2, h3]
  exact h

theorem tokenInv_run (s : KeyBank) (ops : List PoolOp) (h : TokenInv s) :
    TokenInv (runOps s ops) := by
  induction ops generalizing s with
  | nil => exact h
  | cons op rest ih =>
    cases op with
    | acquire now => exact ih _ (tokenInv_acquire s now h)
    | penalize idx seconds now => exact ih _ (tokenInv_penalize s idx seconds now h)

-- Claim C4: token bounds hold at all times.

/-- C4: construction fills every bucket to capacity, and after any sequence
of acquire and penalize operations every credential's token count stays
within [0, capacity]: refills are capped by the minimum with capacity and a
token is consumed only when at least one is present. -/
theorem tokens_bounded (n : ℕ) (interval : ℚ) (rpm : Option ℚ) (t0 : ℚ)
    (s0 : KeyBank) (h : mkKeyBank n interval rpm t0 = some s0)
    (ops : List PoolOp) :
    s0.tokens = List.replicate n s0.capacity
    ∧ ∀ x ∈ (runOps s0 ops).tokens,
        0 ≤ x ∧ x ≤ (runOps s0 ops).capacity := by
  obtain ⟨hn, hcap, hrate, htok, hlast, hheap⟩ := mkKeyBank_some h
  refine ⟨htok, ?_⟩
  have hinv : TokenInv s0 := by
    refine ⟨hcap, ?_, ?_⟩
    · rw [hrate]
      positivity
    · intro x hx
      rw [htok] at hx
      rw [List.eq_of_mem_replicate hx]
      exact ⟨hcap, le_refl _⟩
  exact (tokenInv_run s0 ops hinv).2.2

/-- Witness for C4 at a concrete one-key pool with rate 2 per minute: the
single token count sits within the bounds. -/
theorem tokens_bounded_witness :
    0 ≤ (2:ℤ)
    ∧ (2:ℤ) ≤ (runOps (⟨2, 1/30, [2], [100], [(0, 0)]⟩ : KeyBank) []).capacity := by
  have hmk : mkKeyBank 1 2 (some 2) 100
      = some (⟨2, 1/30, [2], [100], [(0, 0)]⟩ : KeyBank) := by
    simp only [mkKeyBank, pyInt]
    norm_num
    rfl
  exact (tokens_bounded 1 2 (some 2) 100 _ hmk []).2 2 (by decide)

-- Pool integrity invariant for claims C3 and C8.

/-- Pool integrity: positive refill rate, one tokens slot and one last slot
per key, and a heap whose indices are a permutation of 0..n-1 (exactly one
entry per credential). -/
def PoolInv (n : ℕ) (s : KeyBank) : Prop :=
  0 < s.rate
  ∧ s.tokens.length = n
  ∧ s.last.length = n
  ∧ (s.heap.map Prod.snd).Perm (List.range n)

theorem popMin_isSome {l : List (ℚ × ℕ)} (h : l ≠ []) : (popMin l).isSome := by
  cases l with
  | nil => exact absurd rfl h
  | cons e t => rfl

theorem poolInv_acquire (n : ℕ) (s : KeyBank) (now : ℚ) (hn : 0 < n)
    (h : PoolInv n s) :
    PoolInv n (get_key_with_index s now).1
    ∧ (get_key_with_index s now).2.isSome := by
  obtain ⟨hrate, hlt, hll, hperm⟩ := h
  have hne : s.heap ≠ [] := by
    intro hcon
    have hlen := hperm.length_eq
    rw [hcon] at hlen
    simp [List.length_range] at hlen
    omega
  cases hpop : popMin s.heap with
  | none =>
    have := popMin_isSome hne
    rw [hpop] at this
    exact absurd this (by simp)
  | some pr =>
    obtain ⟨⟨a, idx⟩, rest⟩ := pr
    have hpe : s.heap.Perm ((a, idx) :: rest) := popMin_perm hpop
    have hmem : (a, idx) ∈ s.heap := hpe.symm.subset (List.mem_cons_self _ _)
    have hidx : idx < n := by
      have h1 : idx ∈ s.heap.map Prod.snd := List.mem_map_of_mem Prod.snd hmem
      have h2 : idx ∈ List.range n := hperm.subset h1
      exact List.mem_range.mp h2
    have hb : idx < s.tokens.length ∧ idx < s.last.length := by
      rw [hlt, hll]; exact ⟨hidx, hidx⟩
    have hpm : (s.heap.map Prod.snd).Perm (idx :: rest.map Prod.snd) := by
      have := hpe.map Prod.snd
      simpa using this
    have hpush : ∀ x : ℚ, ((rest ++ [(x, idx)]).map Prod.snd).Perm (List.range n) := by
      intro x
      rw [List.map_append]
      refine List.Perm.trans ?_ (List.Perm.trans hpm.symm hperm)
      simp only [List.map_cons, List.map_nil]
      exact List.perm_append_singleton idx (rest.map Prod.snd)
    unfold get_key_with_index
    rw [hpop]
    dsimp only
    rw [if_pos hb]
    generalize (if 0 < max 0 (a - now) then a else now) = now1
    have hlen1t : (refilledTokens s idx now1).length = n := by
      rw [refilledTokens_length, hlt]
    have hlen1l : (refilledLast s idx now1).length = n := by
      rw [refilledLast_length, hll]
    split_ifs with h1 h2 h3 h4
    · exact ⟨⟨hrate, by simp [hlen1t], hlen1l, hpush _⟩, rfl⟩
    · exact absurd h3 hrate.ne'
    · exact ⟨⟨hrate, by simp [hlen1t], hlen1l, hpush _⟩, rfl⟩
    · exact absurd h4 hrate.ne'
    · exact ⟨⟨hrate, hlen1t, by simp [hlen1l], hpush _⟩, rfl⟩

theorem poolInv_penalize (n : ℕ) (s : KeyBank) (idx : ℕ) (seconds now : ℚ)
    (h : PoolInv n s) : PoolInv n (penalize_key s idx seconds now) := by
  obtain ⟨hrate, hlt, hll, hperm⟩ := h
  obtain ⟨h1, h2, h3, h4⟩ := penalize_const_fields s idx seconds now
  refine ⟨by rw [h3]; exact hrate, by rw [h1]; exact hlt, by rw [h4]; exact hll, ?_⟩
  have hh : (penalize_key s idx seconds now).heap.map Prod.snd
      = s.heap.map Prod.snd := by
    unfold penalize_key
    split_ifs with hs
    · rfl
    · exact bumpFirst_map_snd idx _ seconds s.heap
  rw [hh]
  exact hperm

theorem poolInv_run (n : ℕ) (s : KeyBank) (ops : List PoolOp) (hn : 0 < n)
    (h : PoolInv n s) : PoolInv n (runOps s ops) := by
  induction ops generalizing s with
  | nil => exact h
  | cons op rest ih =>
    cases op with
    | acquire now => exact ih _ (poolInv_acquire n s now hn h).1
    | penalize idx seconds now => exact ih _ (poolInv_penalize n s idx seconds now h)

/-- A constructed pool with capacity at least 1 satisfies the integrity
invariant. -/
theorem mkKeyBank_poolInv {n : ℕ} {interval : ℚ} {rpm : Option ℚ} {t0 : ℚ}
    {s0 : KeyBank} (h : mkKeyBank n interval rpm t0 = some s0)
    (hcap : 1 ≤ s0.capacity) : 0 < n ∧ PoolInv n s0 := by
  obtain ⟨hn, hc0, hrate, htok, hlast, hheap⟩ := mkKeyBank_some h
  refine ⟨Nat.pos_of_ne_zero hn, ?_, ?_, ?_, ?_⟩
  · rw [hrate]
    have h1 : (1:ℚ) ≤ (s0.capacity : ℚ) := by exact_mod_cast hcap
    have h2 : (0:ℚ) < (s0.capacity : ℚ) := by linarith
    exact div_pos h2 (by norm_num)
  · rw [htok]; simp
  · rw [hlast]; simp
  · rw [hheap]
    have he : ((List.range n).map (fun i => ((0 : ℚ), i))).map Prod.snd
        = List.range n := by simp
    rw [he]

-- Claim C3: exactly one heap entry per credential.

/-- C3 counterexample: the constructor accepts per_key_rate_per_min = 1/2,
which yields capacity 0 and refill rate 0; the first acquire on such a pool
pops the only heap entry and then raises ZeroDivisionError before pushing
it back, leaving the priority structure empty instead of holding one entry
per credential. -/
theorem heap_entry_dropped_on_zero_capacity :
    mkKeyBank 1 2 (some (1/2)) 1 = some ⟨0, 0, [0], [1], [(0, 0)]⟩
    ∧ (runOps (⟨0, 0, [0], [1], [(0, 0)]⟩ : KeyBank) [PoolOp.acquire 1]).heap
        = [] := by
  constructor
  · simp only [mkKeyBank, pyInt]
    norm_num
    rfl
  · have he : get_key_with_index ⟨0, 0, [0], [1], [(0, 0)]⟩ 1
        = (⟨0, 0, [0], [1], []⟩, none) := by
      simp only [get_key_with_index, popMin, findMin, removeEntry]
      norm_num [refilledTokens, refilledLast, refillAccrued, List.getD]
    simp only [runOps, applyOp, he]

/-- C3 amended: for every pool constructed with capacity at least 1 (every
pool whose accepted rate policy yields a positive rate) and every sequence
of acquire and penalize operations, the heap indices stay a permutation of
0..N-1: exactly one entry per credential, none duplicated, none dropped. -/
theorem heap_one_entry_per_credential (n : ℕ) (interval : ℚ) (rpm : Option ℚ)
    (t0 : ℚ) (s0 : KeyBank) (h : mkKeyBank n interval rpm t0 = some s0)
    (hcap : 1 ≤ s0.capacity) (ops : List PoolOp) :
    ((runOps s0 ops).heap.map Prod.snd).Perm (List.range n) := by
  obtain ⟨hnpos, hinv⟩ := mkKeyBank_poolInv h hcap
  exact (poolInv_run n s0 ops hnpos hinv).2.2.2

/-- Witness for C3 amended: one acquire then one penalize on a concrete
one-key pool. -/
theorem heap_one_entry_per_credential_witness :
    ((runOps (⟨2, 1/30, [2], [100], [(0, 0)]⟩ : KeyBank)
        [PoolOp.acquire 100, PoolOp.penalize 0 2 100]).heap.map Prod.snd).Perm
      (List.range 1) := by
  have hmk : mkKeyBank 1 2 (some 2) 100
      = some (⟨2, 1/30, [2], [100], [(0, 0)]⟩ : KeyBank) := by
    simp only [mkKeyBank, pyInt]
    norm_num
    rfl
  exact heap_one_entry_per_credential 1 2 (some 2) 100 _ hmk (by norm_num)
    [PoolOp.acquire 100, PoolOp.penalize 0 2 100]

-- Claim C8: construction-time versus runtime failure.

/-- C8 counterexample: per_key_rate_per_min = 1/2 is an accepted rate
policy (it passes the positivity test of the constructor) yet it yields
capacity 0; on the resulting pool the very first acquire fails at runtime
with ZeroDivisionError, refuting that acquire can only fail when the pool
was constructed with zero credentials. -/
theorem acquire_fails_on_zero_capacity_pool :
    mkKeyBank 1 3 (some (1/2)) 1 = some ⟨0, 0, [0], [1], [(0, 0)]⟩
    ∧ (get_key_with_index ⟨0, 0, [0], [1], [(0, 0)]⟩ 1).2 = none := by
  constructor
  · simp only [mkKeyBank, pyInt]
    norm_num
    rfl
  · have he : get_key_with_index ⟨0, 0, [0], [1], [(0, 0)]⟩ 1
        = (⟨0, 0, [0], [1], []⟩, none) := by
      simp only [get_key_with_index, popMin, findMin, removeEntry]
      norm_num [refilledTokens, refilledLast, refillAccrued, List.getD]
    rw [he]

/-- C8 amended: constructing a pool with an empty credential list fails at
construction time; for every pool successfully constructed whose computed
capacity is at least 1, acquire never fails at runtime, after any sequence
of operations.  (Penalize is modelled as a total function: its only
fallible operation, the log print, is wrapped in a try/except in the
source.)  Pools whose accepted rate policy yields capacity 0 are the
exception that forces this amendment. -/
theorem construction_and_acquire_totality (interval : ℚ) (rpm : Option ℚ)
    (t0 : ℚ) :
    mkKeyBank 0 interval rpm t0 = none
    ∧ ∀ (n : ℕ) (s0 : KeyBank), mkKeyBank n interval rpm t0 = some s0 →
        1 ≤ s0.capacity → ∀ (ops : List PoolOp) (now : ℚ),
          ((get_key_with_index (runOps s0 ops) now).2).isSome = true := by
  constructor
  · simp [mkKeyBank]
  · intro n s0 h hcap ops now
    obtain ⟨hnpos, hinv⟩ := mkKeyBank_poolInv h hcap
    exact (poolInv_acquire n (runOps s0 ops) now hnpos
      (poolInv_run n s0 ops hnpos hinv)).2

/-- Witness for C8 amended: acquire succeeds on a fresh concrete pool. -/
theorem construction_and_acquire_totality_witness :
    ((get_key_with_index (runOps (⟨2, 1/30, [2], [100], [(0, 0)]⟩ : KeyBank) [])
        100).2).isSome = true := by
  have hmk : mkKeyBank 1 2 (some 2) 100
      = some (⟨2, 1/30, [2], [100], [(0, 0)]⟩ : KeyBank) := by
    simp only [mkKeyBank, pyInt]
    norm_num
    rfl
  exact (construction_and_acquire_totality 2 (some 2) 100).2 1 _ hmk
    (by norm_num) [] 100

-- Claim C1: the acquire step matches the specification text.

theorem pyInt_eq_floor {q : ℚ} (h : 0 ≤ q) : pyInt q = ⌊q⌋ :=
  if_neg (not_lt.mpr h)

theorem refillAccrued_eq_floor (s : KeyBank) (idx : ℕ) (now1 : ℚ)
    (hrate : 0 ≤ s.rate) :
    refillAccrued s idx now1 = ⌊max 0 (now1 - s.last.getD idx 0) * s.rate⌋ := by
  unfold refillAccrued
  split_ifs with h
  · exact pyInt_eq_floor (mul_nonneg (le_max_left _ _) hrate)
  · have h0 : max 0 (now1 - s.last.getD idx 0) = 0 :=
      le_antisymm (not_lt.mp h) (le_max_left _ _)
    rw [h0, zero_mul, Int.floor_zero]

theorem refilledTokens_eq_spec (s : KeyBank) (idx : ℕ) (now1 : ℚ)
    (hrate : 0 ≤ s.rate) (htok : ∀ x ∈ s.tokens, 0 ≤ x ∧ x ≤ s.capacity)
    (hb : idx < s.tokens.length) :
    refilledTokens s idx now1
      = s.tokens.set idx
          (min s.capacity (s.tokens.getD idx 0 + refillAccrued s idx now1)) := by
  unfold refilledTokens
  split_ifs with h
  · rfl
  · have h0 : refillAccrued s idx now1 = 0 :=
      le_antisymm (not_lt.mp h) (refillAccrued_nonneg s idx now1 hrate)
    rw [h0, add_zero, min_eq_right (htok _ (getD_mem s.tokens idx 0 hb)).2,
      set_getD_self]

theorem refilledLast_eq_spec (s : KeyBank) (idx : ℕ) (now1 : ℚ)
    (hrate : 0 ≤ s.rate) :
    refilledLast s idx now1
      = s.last.set idx
          (s.last.getD idx 0 + (refillAccrued s idx now1 : ℚ) / s.rate) := by
  unfold refilledLast
  split_ifs with h
  · rfl
  · have h0 : refillAccrued s idx now1 = 0 :=
      le_antisymm (not_lt.mp h) (refillAccrued_nonneg s idx now1 hrate)
    rw [h0, Int.cast_zero, zero_div, add_zero, set_getD_self]

/-- After the refill, the next whole token completes strictly after the
(advanced) current instant: now1 < last + accrued/rate + 1/rate. -/
theorem floor_refill_lt (L now1 : ℚ) {r : ℚ} (hr : 0 < r) :
    now1 < L + (⌊max 0 (now1 - L) * r⌋ : ℚ) / r + 1 / r := by
  by_cases h : now1 - L ≤ 0
  · rw [max_eq_left h, zero_mul, Int.floor_zero, Int.cast_zero, zero_div, add_zero]
    have h1 : 0 < 1 / r := by positivity
    linarith
  · push_neg at h
    rw [max_eq_right (le_of_lt h)]
    have hf : (now1 - L) * r < (⌊(now1 - L) * r⌋ : ℚ) + 1 := Int.lt_floor_add_one _
    have h2 : now1 - L < ((⌊(now1 - L) * r⌋ : ℚ) + 1) / r := by
      rw [lt_div_iff₀ hr]
      exact hf
    rw [add_div] at h2
    linarith

/-- C1: on every state with a positive refill rate, token counts within
bounds and in-range heap indices, the acquire call computes exactly what
the specification text prescribes: the entry with smallest
next_available_time is removed; now is advanced to it when it lies in the
future; the bucket is refilled with exactly floor(elapsed * refill_rate)
whole tokens capped at capacity while last_refill_time advances by
accrued/refill_rate; if tokens >= 1 one token is consumed and
next_available_time becomes now when tokens remain >= 1 and
last_refill_time + 1/refill_rate otherwise; if tokens == 0 the computed
wait is (last_refill_time + 1/refill_rate) - now and last_refill_time
advances to that instant. -/
theorem acquire_matches_spec (s : KeyBank) (now : ℚ) (hrate : 0 < s.rate)
    (htok : ∀ x ∈ s.tokens, 0 ≤ x ∧ x ≤ s.capacity)
    (hwf : ∀ p ∈ s.heap, p.2 < s.tokens.length ∧ p.2 < s.last.length) :
    get_key_with_index s now = specAcquire s now := by
  unfold get_key_with_index specAcquire
  cases hpop : popMin s.heap with
  | none => rfl
  | some pr =>
    obtain ⟨⟨a, idx⟩, rest⟩ := pr
    dsimp only
    have hmem : (a, idx) ∈ s.heap :=
      (popMin_perm hpop).symm.subset (List.mem_cons_self _ _)
    have hb : idx < s.tokens.length ∧ idx < s.last.length := hwf _ hmem
    rw [if_pos hb, if_pos hb]
    have hnow1 : (if 0 < max 0 (a - now) then a else now)
        = (if now < a then a else now) := by
      by_cases h : now < a
      · rw [if_pos h, if_pos ((lt_max_iff).mpr (Or.inr (sub_pos.mpr h)))]
      · rw [if_neg h, if_neg]
        rw [lt_max_iff]
        push_neg
        exact ⟨le_refl 0, by linarith [not_lt.mp h]⟩
    rw [hnow1]
    set now1 : ℚ := if now < a then a else now with hdefn1
    rw [refilledTokens_eq_spec s idx now1 (le_of_lt hrate) htok hb.1,
      refilledLast_eq_spec s idx now1 (le_of_lt hrate),
      refillAccrued_eq_floor s idx now1 (le_of_lt hrate)]
    set A : ℤ := ⌊max 0 (now1 - s.last.getD idx 0) * s.rate⌋ with hdefA
    set T : List ℤ :=
      s.tokens.set idx (min s.capacity (s.tokens.getD idx 0 + A)) with hdefT
    set L : List ℚ :=
      s.last.set idx (s.last.getD idx 0 + (A : ℚ) / s.rate) with hdefL
    by_cases h1 : 1 ≤ T.getD idx 0
    · rw [if_pos h1, if_pos h1]
      by_cases h2 : 1 ≤ (T.set idx (T.getD idx 0 - 1)).getD idx 0
      · rw [if_pos h2, if_pos h2]
      · rw [if_neg h2, if_neg h2, if_neg hrate.ne']
    · rw [if_neg h1, if_neg h1, if_neg hrate.ne']
      have hLgd : L.getD idx 0
          = s.last.getD idx 0 + (A : ℚ) / s.rate := by
        rw [hdefL]
        exact getD_set_self s.last idx _ 0 hb.2
      have hlt : now1 < L.getD idx 0 + 1 / s.rate := by
        rw [hLgd, hdefA]
        exact floor_refill_lt (s.last.getD idx 0) now1 hrate
      have hmax : max 0 (L.getD idx 0 + 1 / s.rate - now1)
          = L.getD idx 0 + 1 / s.rate - now1 :=
        max_eq_right (by linarith)
      rw [hmax]

/-- Witness for C1 at a concrete one-key state with rate 1. -/
theorem acquire_matches_spec_witness :
    get_key_with_index ⟨1, 1, [1], [5], [(0, 0)]⟩ 5
      = specAcquire ⟨1, 1, [1], [5], [(0, 0)]⟩ 5 :=
  acquire_matches_spec ⟨1, 1, [1], [5], [(0, 0)]⟩ 5 (by norm_num) (by decide)
    (by decide)

-- Claim C5: burst admission and forced wait.  The burst scenario runs all
-- acquire calls against the same clock value t0 (no time passing); the
-- states reached are described explicitly below and proved to follow one
-- another.

/-- Refill rate of a pool with explicit capacity C per 60 seconds. -/
def burstRate (C : ℕ) : ℚ := (C : ℚ) / 60

/-- Heap key pushed during the first round: immediately available again
(t0) while tokens remain, the next whole-token instant when C = 1. -/
def burstPushA (C : ℕ) (t0 : ℚ) : ℚ :=
  if C = 1 then t0 + 1 / burstRate C else t0

/-- State of the fresh pool after k acquire calls, k at most N: keys
k..N-1 still hold their initial entry (0, i); keys below k were popped
once and re-pushed. -/
def burstA (N C : ℕ) (t0 : ℚ) (k : ℕ) : KeyBank :=
  { capacity := (C : ℤ)
    rate := burstRate C
    tokens := (List.range N).map (fun i => if i < k then (C : ℤ) - 1 else (C : ℤ))
    last := List.replicate N t0
    heap := (List.range' k (N - k)).map (fun i => ((0 : ℚ), i))
      ++ (List.range k).map (fun i => (burstPushA C t0, i)) }

/-- State after the first round, C at least 2: keys below m are fully
drained (entry at t0 + 1/rate), key m has been hit j extra times beyond
the first round (entry (t0, m) at the end of the heap when j is at least
1), keys beyond m still hold C-1 tokens and entry (t0, i). -/
def burstB (N C : ℕ) (t0 : ℚ) (m j : ℕ) : KeyBank :=
  { capacity := (C : ℤ)
    rate := burstRate C
    tokens := (List.range N).map (fun i =>
      if i < m then 0 else if i = m then (C : ℤ) - 1 - j else (C : ℤ) - 1)
    last := List.replicate N t0
    heap := if j = 0 then
        (List.range' m (N - m)).map (fun i => (t0, i))
          ++ (List.range m).map (fun i => (t0 + 1 / burstRate C, i))
      else
        (List.range' (m+1) (N - (m+1))).map (fun i => (t0, i))
          ++ (List.range m).map (fun i => (t0 + 1 / burstRate C, i))
          ++ [(t0, m)] }

/-- State after all C*N burst calls: every bucket empty, every entry at
t0 + 1/rate. -/
def burstFinal (N C : ℕ) (t0 : ℚ) : KeyBank :=
  { capacity := (C : ℤ)
    rate := burstRate C
    tokens := List.replicate N 0
    last := List.replicate N t0
    heap := (List.range N).map (fun i => (t0 + 1 / burstRate C, i)) }

/-- Invariant of the burst run: after k calls the pool is in the
corresponding explicit state. -/
def BurstGood (N C : ℕ) (t0 : ℚ) (k : ℕ) (s : KeyBank) : Prop :=
  (k ≤ N ∧ s = burstA N C t0 k)
  ∨ (2 ≤ C ∧ ∃ m j, k = N + (C-1)*m + j ∧ m < N ∧ j < C-1
      ∧ s = burstB N C t0 m j)
  ∨ (k = C*N ∧ s = burstFinal N C t0)

theorem getD_map_range {α : Type} (N i : ℕ) (f : ℕ → α) (d : α) (h : i < N) :
    ((List.range N).map f).getD i d = f i := by
  induction N generalizing i f with
  | zero => omega
  | succ n ih =>
    rw [List.range_succ, List.map_append]
    by_cases hi : i < n
    · rw [List.getD_append _ _ _ _ (by simpa using hi)]
      exact ih i f hi
    · have hieq : i = n := by omega
      subst hieq
      rw [List.getD_append_right _ _ _ _ (by simp)]
      simp

theorem set_map_range {α : Type} (N i : ℕ) (f : ℕ → α) (v : α) :
    ((List.range N).map f).set i v
      = (List.range N).map (fun j => if j = i then v else f j) := by
  refine List.ext_getElem (by simp) ?_
  intro j hj1 hj2
  simp only [List.length_set, List.length_map, List.length_range] at hj1
  rw [List.getElem_set]
  by_cases hji : i = j
  · subst hji
    simp
  · rw [if_neg hji]
    simp only [List.getElem_map, List.getElem_range]
    rw [if_neg (fun hc => hji hc.symm)]

theorem map_range_congr {α : Type} (N : ℕ) (f g : ℕ → α)
    (h : ∀ i < N, f i = g i) :
    (List.range N).map f = (List.range N).map g := by
  refine List.map_congr_left ?_
  intro i hi
  exact h i (List.mem_range.mp hi)

theorem map_range_replicate {α : Type} (N : ℕ) (f : ℕ → α) (c : α)
    (h : ∀ i < N, f i = c) :
    (List.range N).map f = List.replicate N c := by
  rw [List.eq_replicate_iff]
  constructor
  · simp
  · intro b hb
    obtain ⟨i, hi, hfi⟩ := List.mem_map.mp hb
    rw [← hfi]
    exact h i (List.mem_range.mp hi)

/-- An acquire that pops an entry already available, on a key whose refill
baseline is the current instant and whose bucket is nonempty: no wait, one
token consumed, the entry re-pushed at now (tokens remain) or at
now + 1/rate (bucket emptied). -/
theorem acquire_nowait (s : KeyBank) (now a : ℚ) (i : ℕ)
    (rest : List (ℚ × ℕ))
    (hpop : popMin s.heap = some ((a, i), rest))
    (ha : a ≤ now)
    (hti : i < s.tokens.length) (hli : i < s.last.length)
    (hlast : s.last.getD i 0 = now)
    (htok1 : 1 ≤ s.tokens.getD i 0)
    (hrate : s.rate ≠ 0) :
    get_key_with_index s now
      = ({ s with tokens := s.tokens.set i (s.tokens.getD i 0 - 1),
                  heap := rest ++ [(if 2 ≤ s.tokens.getD i 0 then now
                    else now + 1 / s.rate, i)] },
         some (i, 0)) := by
  unfold get_key_with_index
  rw [hpop]
  dsimp only
  rw [if_pos ⟨hti, hli⟩]
  have hwh : max 0 (a - now) = 0 := max_eq_left (by linarith)
  rw [hwh, if_neg (lt_irrefl 0)]
  have hacc : refillAccrued s i now = 0 := by
    unfold refillAccrued
    rw [hlast, sub_self, max_self, if_neg (lt_irrefl 0)]
  have htokeq : refilledTokens s i now = s.tokens := by
    unfold refilledTokens
    rw [hacc, if_neg (lt_irrefl 0)]
  have hlasteq : refilledLast s i now = s.last := by
    unfold refilledLast
    rw [hacc, if_neg (lt_irrefl 0)]
  rw [htokeq, hlasteq, if_pos htok1]
  have hgd2 : (s.tokens.set i (s.tokens.getD i 0 - 1)).getD i 0
      = s.tokens.getD i 0 - 1 := getD_set_self s.tokens i _ 0 hti
  by_cases h2 : 2 ≤ s.tokens.getD i 0
  · rw [if_pos (show 1 ≤ (s.tokens.set i (s.tokens.getD i 0 - 1)).getD i 0 by
      rw [hgd2]; omega)]
    rw [if_pos h2]
  · rw [if_neg (show ¬ 1 ≤ (s.tokens.set i (s.tokens.getD i 0 - 1)).getD i 0 by
      rw [hgd2]; omega)]
    rw [if_neg hrate, if_neg h2, hlast]

theorem burstRate_inv_pos {C : ℕ} (hC : 1 ≤ C) : (0:ℚ) < 1 / burstRate C := by
  unfold burstRate
  have hc : (0:ℚ) < (C:ℚ) := by exact_mod_cast hC
  positivity

theorem popMin_burstA (N C k : ℕ) (t0 : ℚ) (hk : k < N) (hC : 1 ≤ C)
    (ht0 : 0 < t0) :
    popMin (burstA N C t0 k).heap
      = some (((0 : ℚ), k),
          (List.range' (k+1) (N - (k+1))).map (fun i => ((0 : ℚ), i))
            ++ (List.range k).map (fun i => (burstPushA C t0, i))) := by
  have hpush : 0 < burstPushA C t0 := by
    unfold burstPushA
    split_ifs with h
    · linarith [burstRate_inv_pos hC]
    · exact ht0
  have hsplit : N - k = (N - (k+1)) + 1 := by omega
  show popMin ((List.range' k (N - k)).map (fun i => ((0:ℚ), i))
      ++ (List.range k).map (fun i => (burstPushA C t0, i))) = _
  rw [hsplit, List.range'_succ, List.map_cons, List.cons_append]
  have hlb : ∀ e ∈ (((0:ℚ), k) ::
      ((List.range' (k+1) (N - (k+1))).map (fun i => ((0:ℚ), i))
        ++ (List.range k).map (fun i => (burstPushA C t0, i)))),
      entryLe ((0:ℚ), k) e := by
    intro e he
    rcases List.mem_cons.mp he with h | h
    · rw [h]; exact entryLe_refl _
    · rcases List.mem_append.mp h with h | h
      · obtain ⟨i, hi, rfl⟩ := List.mem_map.mp h
        have h1 := (List.mem_range'_1.mp hi).1
        exact Or.inr ⟨rfl, by omega⟩
      · obtain ⟨i, hi, rfl⟩ := List.mem_map.mp h
        exact Or.inl hpush
  rw [popMin_eq (List.mem_cons_self _ _) hlb, removeEntry_cons_self]

theorem popMin_burstB0 (N C m : ℕ) (t0 : ℚ) (hm : m < N) (hC : 1 ≤ C) :
    popMin ((List.range' m (N - m)).map (fun i => (t0, i))
        ++ (List.range m).map (fun i => (t0 + 1 / burstRate C, i)))
      = some ((t0, m),
          (List.range' (m+1) (N - (m+1))).map (fun i => (t0, i))
            ++ (List.range m).map (fun i => (t0 + 1 / burstRate C, i))) := by
  have hiv := burstRate_inv_pos hC
  have hsplit : N - m = (N - (m+1)) + 1 := by omega
  rw [hsplit, List.range'_succ, List.map_cons, List.cons_append]
  have hlb : ∀ e ∈ ((t0, m) ::
      ((List.range' (m+1) (N - (m+1))).map (fun i => (t0, i))
        ++ (List.range m).map (fun i => (t0 + 1 / burstRate C, i)))),
      entryLe (t0, m) e := by
    intro e he
    rcases List.mem_cons.mp he with h | h
    · rw [h]; exact entryLe_refl _
    · rcases List.mem_append.mp h with h | h
      · obtain ⟨i, hi, rfl⟩ := List.mem_map.mp h
        have h1 := (List.mem_range'_1.mp hi).1
        exact Or.inr ⟨rfl, by omega⟩
      · obtain ⟨i, hi, rfl⟩ := List.mem_map.mp h
        exact Or.inl (by linarith)
  rw [popMin_eq (List.mem_cons_self _ _) hlb, removeEntry_cons_self]

theorem popMin_burstBj (N C m : ℕ) (t0 : ℚ) (hC : 1 ≤ C) :
    popMin (((List.range' (m+1) (N - (m+1))).map (fun i => (t0, i))
        ++ (List.range m).map (fun i => (t0 + 1 / burstRate C, i)))
        ++ [(t0, m)])
      = some ((t0, m),
          (List.range' (m+1) (N - (m+1))).map (fun i => (t0, i))
            ++ (List.range m).map (fun i => (t0 + 1 / burstRate C, i))) := by
  have hiv := burstRate_inv_pos hC
  have hnotin : (t0, m) ∉ ((List.range' (m+1) (N - (m+1))).map (fun i => (t0, i))
      ++ (List.range m).map (fun i => (t0 + 1 / burstRate C, i))) := by
    intro hmem
    rcases List.mem_append.mp hmem with h | h
    · obtain ⟨i, hi, heq⟩ := List.mem_map.mp h
      have h1 := (List.mem_range'_1.mp hi).1
      have h2 : i = m := congrArg Prod.snd heq
      omega
    · obtain ⟨i, hi, heq⟩ := List.mem_map.mp h
      have h2 : t0 + 1 / burstRate C = t0 := congrArg Prod.fst heq
      linarith
  have hlb : ∀ e ∈ (((List.range' (m+1) (N - (m+1))).map (fun i => (t0, i))
      ++ (List.range m).map (fun i => (t0 + 1 / burstRate C, i)))
      ++ [(t0, m)]), entryLe (t0, m) e := by
    intro e he
    rcases List.mem_append.mp he with h | h
    · rcases List.mem_append.mp h with h1 | h1
      · obtain ⟨i, hi, rfl⟩ := List.mem_map.mp h1
        have h2 := (List.mem_range'_1.mp hi).1
        exact Or.inr ⟨rfl, by omega⟩
      · obtain ⟨i, hi, rfl⟩ := List.mem_map.mp h1
        exact Or.inl (by linarith)
    · rw [List.mem_singleton.mp h]
      exact entryLe_refl _
  have hmem : (t0, m) ∈ (((List.range' (m+1) (N - (m+1))).map (fun i => (t0, i))
      ++ (List.range m).map (fun i => (t0 + 1 / burstRate C, i)))
      ++ [(t0, m)]) :=
    List.mem_append.mpr (Or.inr (List.mem_singleton.mpr rfl))
  rw [popMin_eq hmem hlb, removeEntry_append_left _ hnotin]
  rw [removeEntry_cons_self]
  rw [List.append_nil]

theorem popMin_burstFinal (N C : ℕ) (t0 : ℚ) (hN : 1 ≤ N) :
    popMin (burstFinal N C t0).heap
      = some ((t0 + 1 / burstRate C, 0),
          (List.range' 1 (N - 1)).map (fun i => (t0 + 1 / burstRate C, i))) := by
  have hsplit : N = (N - 1) + 1 := by omega
  show popMin ((List.range N).map (fun i => (t0 + 1 / burstRate C, i))) = _
  rw [List.range_eq_range', hsplit, List.range'_succ, List.map_cons]
  have hlb : ∀ e ∈ ((t0 + 1 / burstRate C, 0) ::
      (List.range' 1 (N - 1)).map (fun i => (t0 + 1 / burstRate C, i))),
      entryLe (t0 + 1 / burstRate C, 0) e := by
    intro e he
    rcases List.mem_cons.mp he with h | h
    · rw [h]; exact entryLe_refl _
    · obtain ⟨i, hi, rfl⟩ := List.mem_map.mp h
      exact Or.inr ⟨rfl, Nat.zero_le i⟩
  rw [popMin_eq (List.mem_cons_self _ _) hlb, removeEntry_cons_self]
  rw [show N - 1 + 1 - 1 = N - 1 from by omega]

theorem getD_replicate {α : Type} (N i : ℕ) (c d : α) (h : i < N) :
    (List.replicate N c).getD i d = c := by
  induction N generalizing i with
  | zero => omega
  | succ n ih =>
    cases i with
    | zero => simp
    | succ k =>
      rw [List.replicate_succ]
      simp only [List.getD_cons_succ]
      exact ih k (by omega)

theorem burstRate_ne_zero {C : ℕ} (hC : 1 ≤ C) : burstRate C ≠ 0 := by
  unfold burstRate
  have hc : (0:ℚ) < (C:ℚ) := by exact_mod_cast hC
  positivity

/-- One burst acquire in the first round: key k is popped from its initial
entry, consumes a token with no wait, and is re-pushed. -/
theorem burst_stepA (N C : ℕ) (t0 : ℚ) (k : ℕ)
    (hC : 1 ≤ C) (ht0 : 0 < t0) (hk : k < N) :
    get_key_with_index (burstA N C t0 k) t0
      = (burstA N C t0 (k+1), some (k, 0)) := by
  have hpop := popMin_burstA N C k t0 hk hC ht0
  have hlen_t : (burstA N C t0 k).tokens.length = N := by
    show ((List.range N).map _).length = N
    simp
  have hlen_l : (burstA N C t0 k).last.length = N := by
    show (List.replicate N t0).length = N
    simp
  have hgd : (burstA N C t0 k).tokens.getD k 0 = (C : ℤ) := by
    show ((List.range N).map
      (fun i => if i < k then (C : ℤ) - 1 else (C : ℤ))).getD k 0 = (C : ℤ)
    rw [getD_map_range N k _ 0 hk]
    simp
  rw [acquire_nowait (burstA N C t0 k) t0 0 k _ hpop (le_of_lt ht0)
    (by rw [hlen_t]; exact hk) (by rw [hlen_l]; exact hk)
    (getD_replicate N k t0 0 hk)
    (by rw [hgd]; exact_mod_cast hC)
    (burstRate_ne_zero hC)]
  have htokeq : (burstA N C t0 k).tokens.set k
      ((burstA N C t0 k).tokens.getD k 0 - 1) = (burstA N C t0 (k+1)).tokens := by
    rw [hgd]
    show ((List.range N).map _).set k ((C : ℤ) - 1)
      = (List.range N).map (fun i => if i < k + 1 then (C : ℤ) - 1 else (C : ℤ))
    rw [set_map_range]
    refine map_range_congr N _ _ ?_
    intro i hi
    by_cases hik : i = k
    · subst hik
      simp
    · rw [if_neg hik]
      by_cases hlt : i < k
      · rw [if_pos hlt, if_pos (by omega)]
      · rw [if_neg hlt, if_neg (by omega)]
  have hentry : (if 2 ≤ (burstA N C t0 k).tokens.getD k 0 then t0
      else t0 + 1 / (burstA N C t0 k).rate) = burstPushA C t0 := by
    rw [hgd]
    show (if 2 ≤ (C : ℤ) then t0 else t0 + 1 / burstRate C) = burstPushA C t0
    unfold burstPushA
    by_cases h1 : C = 1
    · subst h1
      norm_num
    · rw [if_pos (by exact_mod_cast (show 2 ≤ C by omega)), if_neg h1]
  rw [hentry, htokeq]
  refine Prod.ext ?_ rfl
  show ({ burstA N C t0 k with
      tokens := (burstA N C t0 (k+1)).tokens,
      heap := ((List.range' (k+1) (N - (k+1))).map (fun i => ((0:ℚ), i))
        ++ (List.range k).map (fun i => (burstPushA C t0, i)))
        ++ [(burstPushA C t0, k)] } : KeyBank) = burstA N C t0 (k+1)
  have hheap : (((List.range' (k+1) (N - (k+1))).map (fun i => ((0:ℚ), i))
      ++ (List.range k).map (fun i => (burstPushA C t0, i)))
      ++ [(burstPushA C t0, k)])
    = (List.range' (k+1) (N - (k+1))).map (fun i => ((0:ℚ), i))
      ++ (List.range (k+1)).map (fun i => (burstPushA C t0, i)) := by
    rw [List.range_succ, List.map_append, List.append_assoc]
    rfl
  rw [hheap]
  unfold burstA
  rfl

/-- One burst acquire beyond the first round (C at least 2): key m, the
current minimum, consumes a token with no wait; it is re-pushed at t0
while tokens remain, at t0 + 1/rate when its bucket empties. -/
theorem burst_stepB (N C m j : ℕ) (t0 : ℚ)
    (hC : 2 ≤ C) (hm : m < N) (hj : j < C - 1) :
    get_key_with_index (burstB N C t0 m j) t0
      = ((if j + 1 < C - 1 then burstB N C t0 m (j+1)
          else burstB N C t0 (m+1) 0),
         some (m, 0)) := by
  have hC1 : 1 ≤ C := by omega
  have hpop : popMin (burstB N C t0 m j).heap
      = some ((t0, m),
          (List.range' (m+1) (N - (m+1))).map (fun i => (t0, i))
            ++ (List.range m).map (fun i => (t0 + 1 / burstRate C, i))) := by
    unfold burstB
    dsimp only
    split_ifs with hj0
    · exact popMin_burstB0 N C m t0 hm hC1
    · exact popMin_burstBj N C m t0 hC1
  have hlen_t : (burstB N C t0 m j).tokens.length = N := by
    show ((List.range N).map _).length = N
    simp
  have hlen_l : (burstB N C t0 m j).last.length = N := by
    show (List.replicate N t0).length = N
    simp
  have hgd : (burstB N C t0 m j).tokens.getD m 0 = (C : ℤ) - 1 - j := by
    show ((List.range N).map (fun i => if i < m then (0:ℤ)
      else if i = m then (C : ℤ) - 1 - j else (C : ℤ) - 1)).getD m 0 = _
    rw [getD_map_range N m _ 0 hm]
    simp
  have hjz : (j : ℤ) < (C : ℤ) - 1 := by
    have : (j : ℤ) < ((C - 1 : ℕ) : ℤ) := by exact_mod_cast hj
    omega
  have hrateq : (burstB N C t0 m j).rate = burstRate C := rfl
  rw [acquire_nowait (burstB N C t0 m j) t0 t0 m _ hpop le_rfl
    (by rw [hlen_t]; exact hm) (by rw [hlen_l]; exact hm)
    (getD_replicate N m t0 0 hm)
    (by rw [hgd]; omega)
    (burstRate_ne_zero hC1)]
  rw [hrateq, hgd]
  by_cases hlt : j + 1 < C - 1
  · have h2 : 2 ≤ (C : ℤ) - 1 - j := by
      have : ((j : ℤ) + 1) < ((C - 1 : ℕ) : ℤ) := by exact_mod_cast hlt
      omega
    rw [if_pos hlt, if_pos h2]
    refine Prod.ext ?_ rfl
    have htokeq : (burstB N C t0 m j).tokens.set m ((C : ℤ) - 1 - j - 1)
        = (burstB N C t0 m (j+1)).tokens := by
      show ((List.range N).map _).set m _ = (List.range N).map _
      rw [set_map_range]
      refine map_range_congr N _ _ ?_
      intro i hi
      by_cases him : i = m
      · subst him
        rw [if_pos rfl, if_neg (lt_irrefl i), if_pos rfl]
        push_cast
        ring
      · simp [him]
    have hheapeq : (((List.range' (m+1) (N - (m+1))).map (fun i => (t0, i))
        ++ (List.range m).map (fun i => (t0 + 1 / burstRate C, i)))
        ++ [(t0, m)])
        = (burstB N C t0 m (j+1)).heap := by
      unfold burstB
      dsimp only
      rw [if_neg (Nat.succ_ne_zero j)]
    rw [htokeq, hheapeq]
    unfold burstB
    rfl
  · have h2 : ¬ 2 ≤ (C : ℤ) - 1 - j := by
      have hj1 : j + 1 = C - 1 := by omega
      have : ((j : ℤ) + 1) = ((C - 1 : ℕ) : ℤ) := by exact_mod_cast hj1
      omega
    rw [if_neg hlt, if_neg h2]
    refine Prod.ext ?_ rfl
    have hjval : (j : ℤ) = (C : ℤ) - 2 := by
      have hj1 : j + 1 = C - 1 := by omega
      have : ((j : ℤ) + 1) = ((C - 1 : ℕ) : ℤ) := by exact_mod_cast hj1
      omega
    have htokeq : (burstB N C t0 m j).tokens.set m ((C : ℤ) - 1 - j - 1)
        = (burstB N C t0 (m+1) 0).tokens := by
      show ((List.range N).map _).set m _ = (List.range N).map _
      rw [set_map_range]
      refine map_range_congr N _ _ ?_
      intro i hi
      by_cases him : i = m
      · subst him
        rw [if_pos rfl, if_pos (by omega : i < i + 1)]
        rw [hjval]
        ring
      · rw [if_neg him]
        by_cases hilt : i < m
        · rw [if_pos hilt, if_pos (by omega : i < m + 1)]
        · rw [if_neg hilt, if_neg him, if_neg (by omega : ¬ i < m + 1)]
          by_cases him1 : i = m + 1
          · rw [if_pos him1]
            push_cast
            ring
          · rw [if_neg him1]
    have hheapeq : (((List.range' (m+1) (N - (m+1))).map (fun i => (t0, i))
        ++ (List.range m).map (fun i => (t0 + 1 / burstRate C, i)))
        ++ [(t0 + 1 / burstRate C, m)])
        = (burstB N C t0 (m+1) 0).heap := by
      unfold burstB
      dsimp only
      rw [if_pos rfl, List.range_succ, List.map_append, ← List.append_assoc]
      rfl
    rw [htokeq, hheapeq]
    unfold burstB
    rfl

theorem burstA_at_N (N C : ℕ) (t0 : ℚ) (hC : 2 ≤ C) :
    burstA N C t0 N = burstB N C t0 0 0 := by
  unfold burstA burstB burstPushA
  rw [if_neg (by omega : ¬ C = 1), if_pos rfl, Nat.sub_self]
  rw [show List.range' N 0 = ([] : List ℕ) from rfl, Nat.sub_zero,
    ← List.range_eq_range']
  simp only [List.map_nil, List.range_zero, List.nil_append, List.append_nil]
  congr 1
  refine map_range_congr N _ _ ?_
  intro i hi
  rw [if_pos hi, if_neg (by omega : ¬ i < 0)]
  by_cases h0 : i = 0
  · rw [if_pos h0]
    push_cast
    ring
  · rw [if_neg h0]

theorem burstB_at_N (N C : ℕ) (t0 : ℚ) :
    burstB N C t0 N 0 = burstFinal N C t0 := by
  unfold burstB burstFinal
  rw [if_pos rfl, Nat.sub_self]
  rw [show List.range' N 0 = ([] : List ℕ) from rfl]
  simp only [List.map_nil, List.nil_append]
  congr 1
  exact map_range_replicate N _ 0 (fun i hi => by rw [if_pos hi])

theorem burstA_C1_final (N : ℕ) (t0 : ℚ) :
    burstA N 1 t0 N = burstFinal N 1 t0 := by
  unfold burstA burstFinal burstPushA
  rw [if_pos rfl, Nat.sub_self]
  rw [show List.range' N 0 = ([] : List ℕ) from rfl]
  simp only [List.map_nil, List.nil_append]
  congr 1
  refine map_range_replicate N _ 0 ?_
  intro i hi
  rw [if_pos hi]
  norm_num

/-- One step of the burst run: every call before the C*N-th returns with
zero wait and the explicit state description advances. -/
theorem burst_good_step (N C : ℕ) (t0 : ℚ) (k : ℕ) (s : KeyBank)
    (hN : 1 ≤ N) (hC : 1 ≤ C) (ht0 : 0 < t0)
    (hg : BurstGood N C t0 k s) (hk : k < C * N) :
    (∃ i, (get_key_with_index s t0).2 = some (i, 0))
    ∧ BurstGood N C t0 (k+1) (get_key_with_index s t0).1 := by
  rcases hg with ⟨hkN, rfl⟩ | ⟨hC2, m, j, hkeq, hm, hj, rfl⟩ | ⟨hkC, rfl⟩
  · by_cases hkN' : k < N
    · rw [burst_stepA N C t0 k hC ht0 hkN']
      exact ⟨⟨k, rfl⟩, Or.inl ⟨by omega, rfl⟩⟩
    · have hkeq : k = N := by omega
      rw [hkeq]
      have hC2 : 2 ≤ C := by
        by_contra hc
        have hc1 : C = 1 := by omega
        subst hc1
        omega
      rw [burstA_at_N N C t0 hC2]
      rw [burst_stepB N C 0 0 t0 hC2 (by omega) (by omega)]
      by_cases h1 : 0 + 1 < C - 1
      · rw [if_pos h1]
        exact ⟨⟨0, rfl⟩, Or.inr (Or.inl ⟨hC2, 0, 1, by omega, by omega,
          by omega, rfl⟩)⟩
      · rw [if_neg h1]
        by_cases hm1 : 1 < N
        · refine ⟨⟨0, rfl⟩, Or.inr (Or.inl ⟨hC2, 1, 0, by omega, hm1,
            by omega, rfl⟩)⟩
        · have hN1 : N = 1 := by omega
          subst hN1
          refine ⟨⟨0, rfl⟩, Or.inr (Or.inr ⟨by omega, burstB_at_N 1 C t0⟩)⟩
  · rw [burst_stepB N C m j t0 hC2 hm hj]
    by_cases h1 : j + 1 < C - 1
    · rw [if_pos h1]
      exact ⟨⟨m, rfl⟩, Or.inr (Or.inl ⟨hC2, m, j+1, by omega, hm, h1, rfl⟩)⟩
    · rw [if_neg h1]
      by_cases hm1 : m + 1 < N
      · refine ⟨⟨m, rfl⟩, Or.inr (Or.inl ⟨hC2, m+1, 0, ?_, hm1, by omega, rfl⟩)⟩
        have e1 : (C - 1) * (m + 1) = (C - 1) * m + (C - 1) := Nat.mul_succ _ _
        omega
      · have hmN : m + 1 = N := by omega
        refine ⟨⟨m, rfl⟩, Or.inr (Or.inr ⟨?_, ?_⟩)⟩
        · have e1 : (C - 1) * (m + 1) = (C - 1) * m + (C - 1) := Nat.mul_succ _ _
          have e2 : C * (m + 1) = (C - 1) * (m + 1) + (m + 1) := by
            have hc : C = (C - 1) + 1 := by omega
            calc C * (m + 1) = ((C - 1) + 1) * (m + 1) := by rw [← hc]
              _ = (C - 1) * (m + 1) + (m + 1) := by rw [Nat.succ_mul]
          have e3 : C * N = C * (m + 1) := by rw [hmN]
          omega
        · rw [hmN]
          exact burstB_at_N N C t0
  · omega

/-- At the end of the burst every entry sits at t0 + 1/rate. -/
theorem burst_good_final (N C : ℕ) (t0 : ℚ) (hN : 1 ≤ N) (hC : 1 ≤ C)
    (s : KeyBank) (hg : BurstGood N C t0 (C * N) s) :
    s = burstFinal N C t0 := by
  rcases hg with ⟨hkN, rfl⟩ | ⟨hC2, m, j, hkeq, hm, hj, rfl⟩ | ⟨hkC, rfl⟩
  · have hC1 : C = 1 := by
      by_contra h
      have h2 : 2 ≤ C := by omega
      have h3 : 2 * N ≤ C * N := Nat.mul_le_mul_right N h2
      omega
    subst hC1
    rw [one_mul]
    exact burstA_C1_final N t0
  · exfalso
    have e1 : (C - 1) * (m + 1) = (C - 1) * m + (C - 1) := Nat.mul_succ _ _
    have e2 : (C - 1) * (m + 1) ≤ (C - 1) * N := Nat.mul_le_mul_left _ (by omega)
    have e3 : C * N = (C - 1) * N + N := by
      have hc : C = (C - 1) + 1 := by omega
      calc C * N = ((C - 1) + 1) * N := by rw [← hc]
        _ = (C - 1) * N + N := by rw [Nat.succ_mul]
    omega
  · rfl

/-- The explicit state description holds after every prefix of the burst. -/
theorem burst_iter_good (N C : ℕ) (t0 : ℚ) (hN : 1 ≤ N) (hC : 1 ≤ C)
    (ht0 : 0 < t0) :
    ∀ k, k ≤ C * N → BurstGood N C t0 k (iterAcquire (burstA N C t0 0) t0 k) := by
  intro k
  induction k with
  | zero => intro _; exact Or.inl ⟨by omega, rfl⟩
  | succ n ih =>
    intro hle
    exact (burst_good_step N C t0 n _ hN hC ht0 (ih (by omega)) (by omega)).2

/-- The (C*N + 1)-th immediate call computes a wait of exactly 1/rate. -/
theorem burst_final_call (N C : ℕ) (t0 : ℚ) (hN : 1 ≤ N) (hC : 1 ≤ C) :
    (get_key_with_index (burstFinal N C t0) t0).2
      = some (0, 1 / burstRate C) := by
  have hiv := burstRate_inv_pos hC
  have hpop := popMin_burstFinal N C t0 hN
  unfold get_key_with_index
  rw [hpop]
  dsimp only
  have hlen_t : (burstFinal N C t0).tokens.length = N := by
    show (List.replicate N (0:ℤ)).length = N
    simp
  have hlen_l : (burstFinal N C t0).last.length = N := by
    show (List.replicate N t0).length = N
    simp
  rw [if_pos ⟨by rw [hlen_t]; omega, by rw [hlen_l]; omega⟩]
  have hsub : t0 + 1 / burstRate C - t0 = 1 / burstRate C := by ring
  rw [hsub, max_eq_right (le_of_lt hiv), if_pos hiv]
  have hacc : refillAccrued (burstFinal N C t0) 0 (t0 + 1 / burstRate C) = 1 := by
    unfold refillAccrued
    rw [show (burstFinal N C t0).last.getD 0 0 = t0 from
      getD_replicate N 0 t0 0 (by omega)]
    rw [hsub, max_eq_right (le_of_lt hiv), if_pos hiv]
    rw [show (burstFinal N C t0).rate = burstRate C from rfl]
    rw [one_div_mul_cancel (burstRate_ne_zero hC)]
    unfold pyInt
    rw [if_neg (by norm_num : ¬ (1:ℚ) < 0)]
    exact Int.floor_one
  have htok1 : refilledTokens (burstFinal N C t0) 0 (t0 + 1 / burstRate C)
      = (List.replicate N (0:ℤ)).set 0 1 := by
    unfold refilledTokens
    rw [hacc]
    rw [if_pos (by norm_num : (0:ℤ) < 1)]
    rw [show (burstFinal N C t0).tokens.getD 0 0 = 0 from
      getD_replicate N 0 0 0 (by omega)]
    rw [show (burstFinal N C t0).capacity = (C:ℤ) from rfl]
    rw [zero_add, min_eq_right (by exact_mod_cast hC : (1:ℤ) ≤ (C:ℤ))]
    rfl
  rw [htok1]
  have hgd1 : ((List.replicate N (0:ℤ)).set 0 1).getD 0 0 = 1 :=
    getD_set_self _ 0 1 0 (by simp; omega)
  rw [hgd1]
  rw [if_pos (le_refl (1:ℤ))]
  have hgd2 : (((List.replicate N (0:ℤ)).set 0 1).set 0 (1 - 1)).getD 0 0
      = 0 := by
    rw [getD_set_self _ 0 (1-1) 0 (by simp; omega)]
    norm_num
  rw [hgd2]
  rw [if_neg (by norm_num : ¬ (1:ℤ) ≤ 0)]
  rw [show (burstFinal N C t0).rate = burstRate C from rfl]
  rw [if_neg (burstRate_ne_zero hC)]

/-- C5: with N keys of capacity C constructed at instant t0 > 0, each of
the first C*N back-to-back acquire calls (no time passing) computes a zero
wait, and the (C*N + 1)-th immediate call computes a wait of exactly
1/refill_rate (so in particular not less). -/
theorem burst_admission_and_forced_wait (N C : ℕ) (interval t0 : ℚ)
    (s0 : KeyBank) (hN : 1 ≤ N) (hC : 1 ≤ C) (ht0 : 0 < t0)
    (h : mkKeyBank N interval (some (C : ℚ)) t0 = some s0) :
    (∀ k, k < C * N →
      ∃ i, (get_key_with_index (iterAcquire s0 t0 k) t0).2 = some (i, 0))
    ∧ (get_key_with_index (iterAcquire s0 t0 (C * N)) t0).2
        = some (0, 1 / s0.rate) := by
  have hs0 : s0 = burstA N C t0 0 := by
    unfold mkKeyBank at h
    rw [if_neg (by omega : ¬ N = 0)] at h
    dsimp only at h
    rw [if_pos (by exact_mod_cast hC : (0:ℚ) < ((C:ℕ):ℚ))] at h
    have hpy : pyInt ((C:ℕ):ℚ) = (C:ℤ) := by
      unfold pyInt
      rw [if_neg (not_lt.mpr (by positivity))]
      exact Int.floor_natCast C
    rw [hpy] at h
    have h2 := (Option.some.inj h).symm
    rw [h2]
    unfold burstA
    congr 1
    · symm
      exact map_range_replicate N _ ((C:ℤ)) (fun i hi => by
        rw [if_neg (by omega : ¬ i < 0)])
    · rw [Nat.sub_zero, ← List.range_eq_range']
      simp
  have hrate : s0.rate = burstRate C := by
    rw [hs0]
    rfl
  subst hs0
  constructor
  · intro k hk
    exact (burst_good_step N C t0 k _ hN hC ht0
      (burst_iter_good N C t0 hN hC ht0 k (le_of_lt hk)) hk).1
  · have hg := burst_iter_good N C t0 hN hC ht0 (C * N) le_rfl
    have hfin := burst_good_final N C t0 hN hC _ hg
    rw [hrate]
    rw [show iterAcquire (burstA N C t0 0) t0 (C * N)
      = burstFinal N C t0 from hfin]
    exact burst_final_call N C t0 hN hC

/-- Witness for C5: one key of capacity 1 constructed at t0 = 1; the first
call is free and the second immediate call waits exactly 60 seconds. -/
theorem burst_admission_and_forced_wait_witness :
    (get_key_with_index
        (iterAcquire (⟨1, 1/60, [1], [1], [(0, 0)]⟩ : KeyBank) 1 (1 * 1)) 1).2
      = some (0, 1 / ((1:ℚ)/60)) := by
  have hmk : mkKeyBank 1 5 (some ((1:ℕ):ℚ)) 1
      = some (⟨1, 1/60, [1], [1], [(0, 0)]⟩ : KeyBank) := by
    simp only [mkKeyBank, pyInt]
    norm_num
    rfl
  exact (burst_admission_and_forced_wait 1 1 5 1 _ le_rfl le_rfl
    (by norm_num) hmk).2
